import Mathlib

/-!
Shallow embedding of the csd_jwt repository (selective-disclosure schemes for
Verifiable Credentials), covering `src/sd_algorithms/sd_algorithm.rs` and
`src/sd_algorithms/accumulators/csd_jwt.rs`.

JSON values (`serde_json::Value`) are modelled by the inductive `Value`; the
`serde_json::Map<String, Value>` claim maps are modelled as insertion-ordered
association lists (`Jmap`), which is the iteration order the specification
ascribes to claim-sets.  External libraries (serde_json, multibase, josekit's
JWT primitive, the vb_accumulator pairing library) are modelled by concrete
executable stand-ins that implement their documented interfaces: a full JSON
encoder/parser, UTF-8 and base64url codecs, and a multiset-based accumulator.
-/

namespace CsdJwt

/-- Model of `serde_json::Value`: JSON values.  Numbers are modelled as
integers (the repository only ever stores strings, arrays and objects in the
maps it builds). -/
inductive Value where
  | null
  | bool (b : Bool)
  | num (n : Int)
  | str (s : String)
  | arr (elems : List Value)
  | obj (entries : List (String × Value))
deriving BEq

/-- Model of `serde_json::Map<String, Value>`: an association list in
iteration order. -/
abbrev Jmap := List (String × Value)

/-- Map lookup (`Map::get`): value of the first entry with the given key. -/
def mget : Jmap → String → Option Value
  | [], _ => none
  | (k, v) :: rest, key => if k = key then some v else mget rest key

/-- Map insertion (`Map::insert` with insertion-order preservation): replaces
the value in place if the key is present, appends otherwise; returns the
previous value, as the Rust API does. -/
def minsert : Jmap → String → Value → Option Value × Jmap
  | [], key, v => (none, [(key, v)])
  | (k, w) :: rest, key, v =>
    if k = key then (some w, (key, v) :: rest)
    else
      let r := minsert rest key v
      (r.1, (k, w) :: r.2)

/-- Map removal (`Map::remove`): removes the entry with the given key and
returns the previous value, as the Rust API does. -/
def mremove : Jmap → String → Option Value × Jmap
  | [], _ => (none, [])
  | (k, w) :: rest, key =>
    if k = key then (some w, rest)
    else
      let r := mremove rest key
      (r.1, (k, w) :: r.2)

/-- Modelled from the spec: the reserved claim-set field name.  The constant
`CLAIMS` lives in `common_data.rs`, which is not among the provided sources;
the name is taken from `extract_claims`'s error message, which calls it the
credentialSubject field. -/
def CLAIMS : String := "credentialSubject"

/-- `SdAlgorithm::extract_claims`: returns the claim-set stored under the
reserved field, failing if the field is absent or not an object. -/
def extract_claims (map : Jmap) : Except String Jmap :=
  match mget map CLAIMS with
  | none => .error "Map does not contain the credentialSubject field. No claims can be disclosed."
  | some (.obj claims) => .ok claims
  | some _ => .error "CredentialSubject field is not an object"

/-- `SdAlgorithm::insert_claims`: inserts the claim-set under the reserved
field (the insertion always happens), then reports an error if the field was
previously absent.  The Rust function mutates the map in place; the model
returns the updated map alongside the result. -/
def insert_claims (map : Jmap) (claims : Jmap) : Jmap × Except String Unit :=
  let r := minsert map CLAIMS (.obj claims)
  match r.1 with
  | none => (r.2, .error "Claim set not present. This should never happen.")
  | some _ => (r.2, .ok ())

/-- `SdAlgorithm::remove_claims`: removes the reserved claim-set field,
reporting an error if it was absent. -/
def remove_claims (map : Jmap) : Jmap × Except String Unit :=
  let r := mremove map CLAIMS
  match r.1 with
  | none => (r.2, .error "Claim set not present. This should never happen.")
  | some _ => (r.2, .ok ())

/-- Inner loop of `filter_claims_by_disclosure_and_insert`: first claim whose
key equals the disclosure, together with its position (the enumeration index
starting at `i`). -/
def claimLookupIdx : Jmap → String → Nat → Option (Nat × Value)
  | [], _, _ => none
  | (k, v) :: rest, d, i => if k = d then some (i, v) else claimLookupIdx rest d (i + 1)

/-- Outer loop of `filter_claims_by_disclosure_and_insert`: walks the
disclosure list, collecting the matching claims and their positional
indices. -/
def filterLoop (claims : Jmap) : List String → Jmap → List Nat → Jmap × List Nat
  | [], disclosed, idxs => (disclosed, idxs)
  | d :: ds, disclosed, idxs =>
    match claimLookupIdx claims d 0 with
    | none => filterLoop claims ds disclosed idxs
    | some (i, v) => filterLoop claims ds (minsert disclosed d v).2 (idxs ++ [i])

/-- `SdAlgorithm::filter_claims_by_disclosure_and_insert`: extracts the
claim-set, retains only the claims whose key appears in the disclosure list
(silently skipping disclosures with no matching claim), reinserts the filtered
claim-set, and returns the positional indices of the retained claims. -/
def filter_claims_by_disclosure_and_insert (map : Jmap) (disclosures : List String) :
    Jmap × Except String (List Nat) :=
  match extract_claims map with
  | .error e => (map, .error e)
  | .ok claims =>
    let r := filterLoop claims disclosures [] []
    let ins := insert_claims map r.1
    match ins.2 with
    | .error e => (ins.1, .error e)
    | .ok _ => (ins.1, .ok r.2)

/-- UTF-8 encoding of a single code point (`String::into_bytes` works on the
UTF-8 byte representation of a Rust string). -/
def utf8EncChar (n : Nat) : List Nat :=
  if n < 0x80 then [n]
  else if n < 0x800 then [0xC0 + n / 0x40, 0x80 + n % 0x40]
  else if n < 0x10000 then [0xE0 + n / 0x1000, 0x80 + n / 0x40 % 0x40, 0x80 + n % 0x40]
  else [0xF0 + n / 0x40000, 0x80 + n / 0x1000 % 0x40, 0x80 + n / 0x40 % 0x40, 0x80 + n % 0x40]

/-- UTF-8 byte sequence of a list of characters. -/
def charsBytes (cs : List Char) : List Nat :=
  (cs.map (fun c => utf8EncChar c.toNat)).flatten

/-- UTF-8 byte sequence of a string (`String::into_bytes`). -/
def strBytes (s : String) : List Nat := charsBytes s.data

/-- `SdAlgorithm::convert_claims_to_bytes`: encodes each string-valued claim
as the bytes of `key:value`, in claim-set iteration order, silently skipping
claims whose value is not a string; always succeeds. -/
def convert_claims_to_bytes (claims : Jmap) : Except String (List (List Nat)) :=
  let messages := claims.foldl
    (fun msgs kv =>
      match kv.2 with
      | .str val => msgs ++ [kv.1 ++ ":" ++ val]
      | _ => msgs) []
  .ok (messages.map strBytes)

theorem minsert_fst (m : Jmap) (k : String) (v : Value) : (minsert m k v).1 = mget m k := by
  induction m with
  | nil => rfl
  | cons kv rest ih =>
    obtain ⟨k', w⟩ := kv
    simp only [minsert, mget]
    split <;> simp [ih]

theorem mget_minsert_self (m : Jmap) (k : String) (v : Value) :
    mget (minsert m k v).2 k = some v := by
  induction m with
  | nil => simp [minsert, mget]
  | cons kv rest ih =>
    obtain ⟨k', w⟩ := kv
    simp only [minsert]
    split
    · simp [mget]
    · simp [mget, *]

theorem mget_minsert_ne (m : Jmap) (k k' : String) (v : Value) (h : k ≠ k') :
    mget (minsert m k v).2 k' = mget m k' := by
  induction m with
  | nil => simp [minsert, mget, h]
  | cons kv rest ih =>
    obtain ⟨ka, w⟩ := kv
    simp only [minsert]
    split
    · rename_i heq
      subst heq
      simp only [mget, if_neg h]
    · simp only [mget]
      split <;> simp [ih]

theorem mremove_fst (m : Jmap) (k : String) : (mremove m k).1 = mget m k := by
  induction m with
  | nil => rfl
  | cons kv rest ih =>
    obtain ⟨k', w⟩ := kv
    simp only [mremove, mget]
    split <;> simp [ih]

theorem mget_mremove_ne (m : Jmap) (k k' : String) (h : k ≠ k') :
    mget (mremove m k).2 k' = mget m k' := by
  induction m with
  | nil => simp [mremove, mget]
  | cons kv rest ih =>
    obtain ⟨ka, w⟩ := kv
    simp only [mremove]
    split
    · rename_i heq
      subst heq
      simp [mget, h]
    · simp only [mget]
      split <;> simp [ih]

/-- Distinctness of the keys of an association-list map; holds for every map
that models an actual `serde_json::Map`. -/
def nodupKeys : Jmap → Bool
  | [] => true
  | (k, _) :: rest => decide (k ∉ rest.map Prod.fst) && nodupKeys rest

/-- A key is absent from the map exactly when lookup fails. -/
theorem mget_eq_none_iff (m : Jmap) (k : String) :
    mget m k = none ↔ k ∉ m.map Prod.fst := by
  induction m with
  | nil => simp [mget]
  | cons kv rest ih =>
    obtain ⟨ka, w⟩ := kv
    by_cases h : ka = k
    · subst h
      simp [mget]
    · simp only [mget, if_neg h, ih, List.map_cons, List.mem_cons]
      constructor
      · rintro hn (h1 | h2)
        · exact h h1.symm
        · exact hn h2
      · exact fun hn h2 => hn (Or.inr h2)

theorem mget_mremove_self (m : Jmap) (k : String) (hnd : nodupKeys m = true) :
    mget (mremove m k).2 k = none := by
  induction m with
  | nil => simp [mremove, mget]
  | cons kv rest ih =>
    obtain ⟨ka, w⟩ := kv
    simp only [nodupKeys, Bool.and_eq_true, decide_eq_true_eq] at hnd
    by_cases h : ka = k
    · subst h
      simp only [mremove, if_pos rfl]
      exact (mget_eq_none_iff rest ka).mpr hnd.1
    · simp only [mremove, if_neg h, mget, if_neg h]
      exact ih hnd.2

theorem convert_fold (claims : Jmap) (msgs : List String) :
    claims.foldl
      (fun msgs kv =>
        match kv.2 with
        | .str val => msgs ++ [kv.1 ++ ":" ++ val]
        | _ => msgs) msgs
      = msgs ++ claims.filterMap (fun kv =>
          match kv.2 with
          | .str val => some (kv.1 ++ ":" ++ val)
          | _ => none) := by
  induction claims generalizing msgs with
  | nil => simp
  | cons kv rest ih =>
    obtain ⟨k, v⟩ := kv
    cases v <;> simp [List.foldl_cons, ih, List.filterMap_cons]

/-- C10: `insert_claims` performs the insertion unconditionally (the reserved
field maps to the new claim-set afterwards in every case), but it reports an
error exactly when the reserved claim-set field was absent from the map before
the call, succeeding only when it replaced an already-present claim-set
field. -/
theorem insert_claims_errors_iff_claims_absent (map claims : Jmap) :
    mget (insert_claims map claims).1 CLAIMS = some (.obj claims) ∧
    ((insert_claims map claims).2 = .ok () ↔ mget map CLAIMS ≠ none) := by
  have hfst := minsert_fst map CLAIMS (.obj claims)
  constructor
  · unfold insert_claims
    rcases h : (minsert map CLAIMS (Value.obj claims)).1 with _ | v <;>
      simp [h, mget_minsert_self]
  · unfold insert_claims
    rcases h : (minsert map CLAIMS (Value.obj claims)).1 with _ | v <;>
      rw [← hfst, h] <;> simp [h]

/-- C8: `convert_claims_to_bytes` always succeeds and returns, in claim-set
iteration order, the byte encodings of `key:value` for exactly the claims
whose value is a string; claims with non-string values are silently dropped
rather than causing an error. -/
theorem convert_claims_to_bytes_spec (claims : Jmap) :
    convert_claims_to_bytes claims =
      .ok (claims.filterMap (fun kv =>
        match kv.2 with
        | .str val => some (strBytes (kv.1 ++ ":" ++ val))
        | _ => none)) := by
  unfold convert_claims_to_bytes
  rw [convert_fold, List.nil_append]
  show Except.ok (List.map strBytes _) = _
  rw [List.map_filterMap]
  congr 2
  funext kv
  obtain ⟨k, v⟩ := kv
  cases v <;> simp

theorem claimLookupIdx_spec (claims : Jmap) (d : String) (i : Nat) :
    claimLookupIdx claims d i =
      match (claims.map Prod.fst).indexOf? d, mget claims d with
      | some j, some v => some (i + j, v)
      | _, _ => none := by
  induction claims generalizing i with
  | nil => simp [claimLookupIdx, mget, List.indexOf?, List.findIdx?]
  | cons kv rest ih =>
    obtain ⟨k, v⟩ := kv
    by_cases h : k = d
    · subst h
      simp [claimLookupIdx, mget, List.indexOf?_cons]
    · simp only [claimLookupIdx, if_neg h, mget, if_neg h, List.map_cons, List.indexOf?_cons,
        beq_iff_eq, if_neg h, ih]
      rcases (rest.map Prod.fst).indexOf? d with _ | j <;> rcases mget rest d with _ | v2 <;>
        (simp; try omega)

theorem mget_none_iff_indexOf?_none (claims : Jmap) (d : String) :
    mget claims d = none ↔ (claims.map Prod.fst).indexOf? d = none := by
  induction claims with
  | nil => simp [mget, List.indexOf?, List.findIdx?]
  | cons kv rest ih =>
    obtain ⟨k, v⟩ := kv
    by_cases h : k = d
    · subst h
      simp [mget, List.indexOf?_cons]
    · simp [mget, if_neg h, List.indexOf?_cons, h, ih]

theorem filterLoop_snd (claims : Jmap) (ds : List String) (acc : Jmap) (idxs : List Nat) :
    (filterLoop claims ds acc idxs).2 =
      idxs ++ ds.filterMap (fun d => (claims.map Prod.fst).indexOf? d) := by
  induction ds generalizing acc idxs with
  | nil => simp [filterLoop]
  | cons d ds' ih =>
    simp only [filterLoop, claimLookupIdx_spec claims d 0]
    rcases hio : (claims.map Prod.fst).indexOf? d with _ | j
    · have hm : mget claims d = none := (mget_none_iff_indexOf?_none claims d).mpr hio
      rw [hm]
      simp [ih, List.filterMap_cons, hio]
    · rcases hm : mget claims d with _ | v
      · exact absurd hio (by simp [(mget_none_iff_indexOf?_none claims d).mp hm])
      · simp [ih, List.filterMap_cons, hio]

theorem filterLoop_fst_mget (claims : Jmap) (ds : List String) (acc : Jmap) (idxs : List Nat)
    (k : String) :
    mget (filterLoop claims ds acc idxs).1 k =
      if k ∈ ds ∧ (mget claims k).isSome then mget claims k else mget acc k := by
  induction ds generalizing acc idxs with
  | nil => simp [filterLoop]
  | cons d ds' ih =>
    simp only [filterLoop, claimLookupIdx_spec claims d 0]
    rcases hm : mget claims d with _ | v
    · rw [(mget_none_iff_indexOf?_none claims d).mp hm]
      rw [ih]
      by_cases hk : k = d
      · subst hk
        simp [hm]
      · simp [List.mem_cons, hk]
    · rcases hio : (claims.map Prod.fst).indexOf? d with _ | j
      · exact absurd hm (by rw [(mget_none_iff_indexOf?_none claims d).mpr hio]; simp)
      · rw [ih]
        by_cases hk : k = d
        · subst hk
          by_cases hks : k ∈ ds'
          · simp [hks, hm]
          · simp [hks, hm, mget_minsert_self]
        · rw [mget_minsert_ne _ _ _ _ (fun h => hk h.symm)]
          simp [List.mem_cons, hk]

theorem getD_of_indexOf? (keys : List String) (d : String) (j : Nat)
    (h : keys.indexOf? d = some j) : keys.getD j "" = d := by
  induction keys generalizing j with
  | nil => simp [List.indexOf?, List.findIdx?] at h
  | cons k ks ih =>
    rw [List.indexOf?_cons] at h
    by_cases hk : k = d
    · simp [hk] at h
      subst h
      simpa using hk
    · simp [hk] at h
      rcases h with ⟨j', hj', rfl⟩
      simpa using ih j' hj'

theorem indices_select_disclosed (keys : List String) (ds : List String) :
    (ds.filterMap (fun d => keys.indexOf? d)).map (fun i => keys.getD i "") =
      ds.filter (fun d => decide (d ∈ keys)) := by
  induction ds with
  | nil => simp
  | cons d ds' ih =>
    rcases hio : keys.indexOf? d with _ | j
    · have hd : d ∉ keys := by
        intro hmem
        have := List.indexOf?_eq_none_iff.mp hio d hmem
        simp at this
      simp only [List.filterMap_cons, hio, List.filter_cons, List.map_cons, ih]
      simp [hd]
    · have hd : d ∈ keys := by
        by_contra hnotin
        have hnone : keys.indexOf? d = none :=
          List.indexOf?_eq_none_iff.mpr (fun x hx => by
            simp only [beq_iff_eq]
            exact fun he => hnotin (he ▸ hx))
        rw [hnone] at hio
        cases hio
      simp only [List.filterMap_cons, hio, List.filter_cons, List.map_cons, ih]
      have hg := getD_of_indexOf? keys d j hio
      rw [List.getD] at hg
      rw [List.get?_eq_getElem?] at hg
      simp [hd, hg]

/-- C7: for every map whose reserved claim-set field is an object and every
disclosure list, `filter_claims_by_disclosure_and_insert` replaces the
claim-set with exactly those claims whose key appears in the disclosure list
(disclosure keys with no matching claim are silently ignored, not an error),
and returns the positional indices, relative to the claim-set's original
iteration order, that select exactly the retained (disclosed and present)
keys. -/
theorem filter_claims_by_disclosure_spec (map claims : Jmap) (disclosures : List String)
    (hc : mget map CLAIMS = some (.obj claims)) :
    (filter_claims_by_disclosure_and_insert map disclosures).2 =
      .ok (disclosures.filterMap (fun d => (claims.map Prod.fst).indexOf? d)) ∧
    (∃ newClaims,
      extract_claims (filter_claims_by_disclosure_and_insert map disclosures).1 = .ok newClaims ∧
      ∀ k, mget newClaims k = if k ∈ disclosures then mget claims k else none) ∧
    (disclosures.filterMap (fun d => (claims.map Prod.fst).indexOf? d)).map
        (fun i => (claims.map Prod.fst).getD i "") =
      disclosures.filter (fun d => decide (d ∈ claims.map Prod.fst)) := by
  have hex : extract_claims map = .ok claims := by
    unfold extract_claims
    rw [hc]
  have hfst := minsert_fst map CLAIMS (Value.obj (filterLoop claims disclosures [] []).1)
  rw [hc] at hfst
  have hres : filter_claims_by_disclosure_and_insert map disclosures =
      ((minsert map CLAIMS (Value.obj (filterLoop claims disclosures [] []).1)).2,
        .ok (filterLoop claims disclosures [] []).2) := by
    unfold filter_claims_by_disclosure_and_insert insert_claims
    rw [hex]
    simp only [hfst]
  refine ⟨?_, ⟨(filterLoop claims disclosures [] []).1, ?_, ?_⟩, ?_⟩
  · rw [hres]
    rw [filterLoop_snd]
    simp
  · rw [hres]
    unfold extract_claims
    rw [mget_minsert_self]
  · intro k
    rw [filterLoop_fst_mget]
    by_cases hk : k ∈ disclosures
    · rcases hmk : mget claims k with _ | v
      · simp [hk, hmk, mget]
      · simp [hk, hmk, mget]
    · simp [hk, mget]
  · exact indices_select_disclosed _ _

/-- Concrete map, claim-set and disclosure list used by the C7 witness. -/
def c7map : Jmap := [(CLAIMS, .obj [("a", .str "x"), ("b", .str "y")])]

/-- Claim-set of `c7map`. -/
def c7claims : Jmap := [("a", .str "x"), ("b", .str "y")]

/-- Disclosure list with one present key and one absent key. -/
def c7disc : List String := ["b", "zzz"]

/-- Witness for C7: the hypothesis is discharged at a concrete map whose
claim-set holds keys a and b, disclosing b and the absent key zzz. -/
theorem filter_claims_by_disclosure_spec_witness :
    mget c7map CLAIMS = some (.obj c7claims) ∧
    ((filter_claims_by_disclosure_and_insert c7map c7disc).2 =
        .ok (c7disc.filterMap (fun d => (c7claims.map Prod.fst).indexOf? d)) ∧
      (∃ newClaims,
        extract_claims (filter_claims_by_disclosure_and_insert c7map c7disc).1 = .ok newClaims ∧
        ∀ k, mget newClaims k = if k ∈ c7disc then mget c7claims k else none) ∧
      (c7disc.filterMap (fun d => (c7claims.map Prod.fst).indexOf? d)).map
          (fun i => (c7claims.map Prod.fst).getD i "") =
        c7disc.filter (fun d => decide (d ∈ c7claims.map Prod.fst))) :=
  ⟨rfl, filter_claims_by_disclosure_spec c7map c7claims c7disc rfl⟩

/-- Lower-case hexadecimal digit characters (also used for decimal digits). -/
def hexDigit (n : Nat) : Char := "0123456789abcdef".toList.getD n '0'

/-- Value of a hexadecimal digit character. -/
def hexVal (c : Char) : Option Nat :=
  if '0' ≤ c ∧ c ≤ '9' then some (c.toNat - '0'.toNat)
  else if 'a' ≤ c ∧ c ≤ 'f' then some (c.toNat - 'a'.toNat + 10)
  else if 'A' ≤ c ∧ c ≤ 'F' then some (c.toNat - 'A'.toNat + 10)
  else none

/-- Four-digit fixed-width hexadecimal rendering, as in JSON \u escapes. -/
def hex4 (n : Nat) : List Char :=
  [hexDigit (n / 0x1000 % 16), hexDigit (n / 0x100 % 16), hexDigit (n / 16 % 16), hexDigit (n % 16)]

/-- Decimal digits of a natural number, most significant first. -/
def natDigits (n : Nat) : List Char :=
  if _h : n < 10 then [hexDigit n]
  else natDigits (n / 10) ++ [hexDigit (n % 10)]
decreasing_by exact Nat.div_lt_self (by omega) (by omega)

/-- Number of decimal digits produced by `natDigits`. -/
def digitCount (n : Nat) : Nat :=
  if _h : n < 10 then 1 else digitCount (n / 10) + 1
decreasing_by exact Nat.div_lt_self (by omega) (by omega)

/-- Decimal rendering of an integer, as serde_json prints JSON numbers. -/
def intChars (n : Int) : List Char :=
  if n < 0 then '-' :: natDigits n.natAbs else natDigits n.toNat

/-- JSON string escaping of one character, as serde_json performs it: quotes
and backslashes take their two-character escapes, control characters are
\u-escaped, and all other characters (non-ASCII included) pass through
unescaped. -/
def escapeChar (c : Char) : List Char :=
  if c = '"' then ['\\', '"']
  else if c = '\\' then ['\\', '\\']
  else if c.toNat < 0x20 then '\\' :: 'u' :: hex4 c.toNat
  else [c]

/-- JSON rendering of a string literal, including the surrounding quotes. -/
def encString (s : String) : List Char :=
  '"' :: (s.data.map escapeChar).flatten ++ ['"']

mutual

/-- Model of `serde_json::to_string` on a `Value` (no insignificant
whitespace, which is serde's compact default). -/
def encVal : Value → List Char
  | .null => "null".toList
  | .bool true => "true".toList
  | .bool false => "false".toList
  | .num n => intChars n
  | .str s => encString s
  | .arr xs => '[' :: encArr xs
  | .obj m => '\x7b' :: encObj m

/-- Comma-separated element chain of a JSON array, with closing bracket. -/
def encArr : List Value → List Char
  | [] => [']']
  | [x] => encVal x ++ [']']
  | x :: y :: rest => encVal x ++ ',' :: encArr (y :: rest)

/-- Comma-separated entry chain of a JSON object, with closing brace. -/
def encObj : List (String × Value) → List Char
  | [] => ['\x7d']
  | [(k, v)] => encString k ++ ':' :: encVal v ++ ['\x7d']
  | (k, v) :: e :: rest => encString k ++ ':' :: encVal v ++ ',' :: encObj (e :: rest)

end

/-- Digit-run parse with accumulator; stops at the first non-digit. -/
def parseNatChars (acc : Nat) : List Char → Nat × List Char
  | [] => (acc, [])
  | c :: rest =>
    if c.isDigit then parseNatChars (acc * 10 + (c.toNat - '0'.toNat)) rest
    else (acc, c :: rest)

/-- JSON integer parse (optional minus sign, one or more digits). -/
def parseIntChars : List Char → Option (Int × List Char)
  | [] => none
  | c :: rest =>
    if c = '-' then
      match rest with
      | [] => none
      | c2 :: rest2 =>
        if c2.isDigit then
          let r := parseNatChars 0 (c2 :: rest2)
          some (-(r.1 : Int), r.2)
        else none
    else if c.isDigit then
      let r := parseNatChars 0 (c :: rest)
      some ((r.1 : Int), r.2)
    else none

/-- Single-character JSON escapes accepted after a backslash. -/
def escControl (c : Char) : Option Char :=
  if c = '"' then some '"'
  else if c = '\\' then some '\\'
  else if c = '/' then some '/'
  else if c = 'n' then some (Char.ofNat 10)
  else if c = 't' then some (Char.ofNat 9)
  else if c = 'r' then some (Char.ofNat 13)
  else if c = 'b' then some (Char.ofNat 8)
  else if c = 'f' then some (Char.ofNat 12)
  else none

/-- Combined value of four hexadecimal digit characters. -/
def hexQuad (a b c d : Char) : Option Nat :=
  match hexVal a, hexVal b, hexVal c, hexVal d with
  | some va, some vb, some vc, some vd => some (va * 0x1000 + vb * 0x100 + vc * 16 + vd)
  | _, _, _, _ => none

/-- JSON string-body parse: consumes characters up to the closing quote,
decoding escapes.  \u escapes cover the basic plane (astral characters travel
unescaped, as serde_json emits them); surrogate code points are rejected. -/
def parseStr : List Char → Option (List Char × List Char)
  | [] => none
  | c :: rest =>
    if c = '"' then some ([], rest)
    else if c = '\\' then
      match rest with
      | [] => none
      | e :: rest2 =>
        if e = 'u' then
          match rest2 with
          | a :: b :: c3 :: d :: rest3 =>
            match hexQuad a b c3 d with
            | none => none
            | some h =>
              if 0xD800 ≤ h ∧ h < 0xE000 then none
              else (parseStr rest3).map (fun r => (Char.ofNat h :: r.1, r.2))
          | _ => none
        else
          match escControl e with
          | some ec => (parseStr rest2).map (fun r => (ec :: r.1, r.2))
          | none => none
    else (parseStr rest).map (fun r => (c :: r.1, r.2))

mutual

/-- Fuel-indexed JSON value parse, dispatching on the first character. -/
def parseVal : Nat → List Char → Option (Value × List Char)
  | 0, _ => none
  | _ + 1, [] => none
  | fuel + 1, c :: rest =>
    if c = 'n' then
      match rest with
      | u :: l1 :: l2 :: r =>
        if u = 'u' ∧ l1 = 'l' ∧ l2 = 'l' then some (.null, r) else none
      | _ => none
    else if c = 't' then
      match rest with
      | r1 :: u :: e :: r =>
        if r1 = 'r' ∧ u = 'u' ∧ e = 'e' then some (.bool true, r) else none
      | _ => none
    else if c = 'f' then
      match rest with
      | a :: l1 :: s :: e :: r =>
        if a = 'a' ∧ l1 = 'l' ∧ s = 's' ∧ e = 'e' then some (.bool false, r) else none
      | _ => none
    else if c = '"' then
      (parseStr rest).map (fun r => (.str (String.mk r.1), r.2))
    else if c = '\x7b' then
      match rest with
      | [] => none
      | c2 :: rest2 =>
        if c2 = '\x7d' then some (.obj [], rest2) else parseObjEntries fuel (c2 :: rest2) []
    else if c = '[' then
      match rest with
      | [] => none
      | c2 :: rest2 =>
        if c2 = ']' then some (.arr [], rest2) else parseArrElems fuel (c2 :: rest2) []
    else if c = '-' ∨ c.isDigit then
      (parseIntChars (c :: rest)).map (fun r => (.num r.1, r.2))
    else none

/-- Element chain of a JSON array being parsed. -/
def parseArrElems : Nat → List Char → List Value → Option (Value × List Char)
  | 0, _, _ => none
  | fuel + 1, input, acc =>
    match parseVal fuel input with
    | none => none
    | some (v, rest) =>
      match rest with
      | [] => none
      | s :: rest2 =>
        if s = ',' then parseArrElems fuel rest2 (acc ++ [v])
        else if s = ']' then some (.arr (acc ++ [v]), rest2)
        else none

/-- Entry chain of a JSON object being parsed; duplicate keys overwrite
earlier ones, as `serde_json::Map` insertion does. -/
def parseObjEntries : Nat → List Char → Jmap → Option (Value × List Char)
  | 0, _, _ => none
  | fuel + 1, input, acc =>
    match input with
    | [] => none
    | q :: rest =>
      if q = '"' then
        match parseStr rest with
        | none => none
        | some (k, rest2) =>
          match rest2 with
          | [] => none
          | col :: rest3 =>
            if col = ':' then
              match parseVal fuel rest3 with
              | none => none
              | some (v, rest4) =>
                match rest4 with
                | [] => none
                | s :: rest5 =>
                  if s = ',' then parseObjEntries fuel rest5 (minsert acc (String.mk k) v).2
                  else if s = '\x7d' then some (.obj (minsert acc (String.mk k) v).2, rest5)
                  else none
            else none
      else none

end

/-- Model of `serde_json::from_str` at type `Value`: parse and require the
whole input to be consumed, with bounded nesting depth (serde imposes a
recursion limit as well). -/
def jsonParse (s : List Char) : Option Value :=
  match parseVal (2 * s.length + 2) s with
  | some (v, []) => some v
  | _ => none

mutual

/-- Values representable as a `serde_json` value: every object, at any
depth, has distinct keys. -/
def wf : Value → Bool
  | .arr xs => wfList xs
  | .obj m => nodupKeys m && wfObj m
  | _ => true

/-- `wf` on each element of an array. -/
def wfList : List Value → Bool
  | [] => true
  | x :: t => wf x && wfList t

/-- `wf` on each value of an object. -/
def wfObj : List (String × Value) → Bool
  | [] => true
  | (_, v) :: t => wf v && wfObj t

end

mutual

/-- Parser fuel sufficient for a value. -/
def fuelOf : Value → Nat
  | .arr xs => 1 + fuelOfList xs
  | .obj m => 1 + fuelOfObj m
  | _ => 1

/-- Parser fuel sufficient for an array's element chain. -/
def fuelOfList : List Value → Nat
  | [] => 1
  | x :: t => 1 + fuelOf x + fuelOfList t

/-- Parser fuel sufficient for an object's entry chain. -/
def fuelOfObj : List (String × Value) → Nat
  | [] => 1
  | (_, v) :: t => 1 + fuelOf v + fuelOfObj t

end

/-- The characters following an encoded value must not extend a trailing
number literal. -/
def numSafe : List Char → Prop
  | [] => True
  | c :: _ => c.isDigit = false

theorem hexVal_hexDigit : ∀ k < 16, hexVal (hexDigit k) = some k := by decide

theorem hexDigit_isDigit : ∀ k < 10, (hexDigit k).isDigit = true := by decide

theorem hexDigit_toNat : ∀ k < 10, (hexDigit k).toNat - '0'.toNat = k := by decide

theorem natDigits_cons (n : Nat) : ∃ c cs, natDigits n = c :: cs ∧ c.isDigit = true := by
  induction n using Nat.strong_induction_on with
  | _ n ih =>
    rw [natDigits]
    by_cases h : n < 10
    · exact ⟨hexDigit n, [], by rw [dif_pos h], hexDigit_isDigit n h⟩
    · obtain ⟨c, cs, hc, hd⟩ := ih (n / 10) (Nat.div_lt_self (by omega) (by omega))
      exact ⟨c, cs ++ [hexDigit (n % 10)], by rw [dif_neg h, hc]; rfl, hd⟩

theorem parseNatChars_stop (acc : Nat) (rest : List Char) (h : numSafe rest) :
    parseNatChars acc rest = (acc, rest) := by
  cases rest with
  | nil => rfl
  | cons c r =>
    simp only [numSafe] at h
    simp [parseNatChars, h]

theorem parseNatChars_digits (n : Nat) : ∀ acc rest,
    parseNatChars acc (natDigits n ++ rest) =
      parseNatChars (acc * 10 ^ digitCount n + n) rest := by
  induction n using Nat.strong_induction_on with
  | _ n ih =>
    intro acc rest
    rw [natDigits, digitCount]
    by_cases h : n < 10
    · rw [dif_pos h, dif_pos h]
      simp only [List.cons_append, List.nil_append]
      rw [parseNatChars]
      simp only [hexDigit_isDigit n h, if_true]
      rw [hexDigit_toNat n h]
      simp
    · rw [dif_neg h, dif_neg h]
      rw [List.append_assoc]
      rw [ih (n / 10) (Nat.div_lt_self (by omega) (by omega))]
      simp only [List.cons_append, List.nil_append]
      rw [parseNatChars]
      have h10 : n % 10 < 10 := Nat.mod_lt _ (by omega)
      simp only [hexDigit_isDigit _ h10, if_true]
      rw [hexDigit_toNat _ h10]
      have hdm : n / 10 * 10 + n % 10 = n := by omega
      have harith : (acc * 10 ^ digitCount (n / 10) + n / 10) * 10 + n % 10 =
          acc * 10 ^ (digitCount (n / 10) + 1) + n := by
        calc (acc * 10 ^ digitCount (n / 10) + n / 10) * 10 + n % 10
            = acc * (10 ^ digitCount (n / 10) * 10) + (n / 10 * 10 + n % 10) := by ring
          _ = acc * 10 ^ (digitCount (n / 10) + 1) + n := by rw [hdm, pow_succ]
      rw [harith]

theorem isDigit_ne_minus {c : Char} (h : c.isDigit = true) : c ≠ '-' := by
  intro he
  subst he
  simp [Char.isDigit] at h

theorem parseIntChars_enc (n : Int) (rest : List Char) (h : numSafe rest) :
    parseIntChars (intChars n ++ rest) = some (n, rest) := by
  unfold intChars
  by_cases hn : n < 0
  · rw [if_pos hn]
    obtain ⟨c, cs, hc, hd⟩ := natDigits_cons n.natAbs
    rw [hc]
    simp only [List.cons_append]
    rw [parseIntChars.eq_def]
    simp only [if_pos rfl]
    rw [show (c :: (cs ++ rest)) = (c :: cs) ++ rest by simp, ← hc]
    simp only [hd, if_true]
    rw [parseNatChars_digits, parseNatChars_stop _ _ h]
    simp only [Nat.zero_mul, Nat.zero_add]
    congr 1
    congr 1
    omega
  · rw [if_neg hn]
    obtain ⟨c, cs, hc, hd⟩ := natDigits_cons n.toNat
    rw [hc]
    simp only [List.cons_append]
    rw [parseIntChars.eq_def]
    simp only [if_neg (isDigit_ne_minus hd)]
    simp only [hd, if_true]
    rw [show (c :: (cs ++ rest)) = (c :: cs) ++ rest by simp, ← hc]
    rw [parseNatChars_digits, parseNatChars_stop _ _ h]
    simp only [Nat.zero_mul, Nat.zero_add]
    congr 1
    congr 1
    omega

theorem char_valid_ranges (c : Char) :
    c.toNat < 0xD800 ∨ (0xDFFF < c.toNat ∧ c.toNat < 0x110000) := c.valid
theorem ps_quote (t : List Char) : parseStr ('"' :: t) = some ([], t) := by
  rw [parseStr.eq_def]
  simp

theorem ps_esc_quote (t : List Char) :
    parseStr ('\\' :: '"' :: t) = (parseStr t).map (fun r => ('"' :: r.1, r.2)) := by
  rw [parseStr.eq_def]
  simp [escControl]

theorem ps_esc_backslash (t : List Char) :
    parseStr ('\\' :: '\\' :: t) = (parseStr t).map (fun r => ('\\' :: r.1, r.2)) := by
  rw [parseStr.eq_def]
  simp [escControl]

theorem ps_u (a b c3 d : Char) (t : List Char) (h : Nat) (hh : hexQuad a b c3 d = some h) :
    parseStr ('\\' :: 'u' :: a :: b :: c3 :: d :: t) =
      (if 0xD800 ≤ h ∧ h < 0xE000 then none
       else (parseStr t).map (fun r => (Char.ofNat h :: r.1, r.2))) := by
  rw [parseStr.eq_def]
  simp only [hh]
  simp

theorem ps_plain (c : Char) (t : List Char) (h1 : ¬ c = '"') (h2 : ¬ c = '\\') :
    parseStr (c :: t) = (parseStr t).map (fun r => (c :: r.1, r.2)) := by
  rw [parseStr.eq_def]
  simp only [if_neg h1, if_neg h2]

theorem parseStr_enc (cs : List Char) (rest : List Char) :
    parseStr ((cs.map escapeChar).flatten ++ '"' :: rest) = some (cs, rest) := by
  induction cs with
  | nil =>
    simp only [List.map_nil, List.flatten_nil, List.nil_append]
    exact ps_quote rest
  | cons c cs ih =>
    simp only [List.map_cons, List.flatten_cons, List.append_assoc]
    by_cases h1 : c = '"'
    · subst h1
      rw [show escapeChar '"' = ['\\', '"'] from by simp [escapeChar]]
      simp only [List.cons_append, List.nil_append]
      rw [ps_esc_quote, ih]
      rfl
    · by_cases h2 : c = '\\'
      · subst h2
        rw [show escapeChar '\\' = ['\\', '\\'] from by simp [escapeChar]]
        simp only [List.cons_append, List.nil_append]
        rw [ps_esc_backslash, ih]
        rfl
      · by_cases h3 : c.toNat < 0x20
        · rw [show escapeChar c = '\\' :: 'u' :: hex4 c.toNat from by
            unfold escapeChar
            rw [if_neg h1, if_neg h2, if_pos h3]]
          simp only [hex4, List.cons_append, List.nil_append]
          have e1 : hexVal (hexDigit (c.toNat / 0x1000 % 16)) = some (c.toNat / 0x1000 % 16) :=
            hexVal_hexDigit _ (by omega)
          have e2 : hexVal (hexDigit (c.toNat / 0x100 % 16)) = some (c.toNat / 0x100 % 16) :=
            hexVal_hexDigit _ (by omega)
          have e3 : hexVal (hexDigit (c.toNat / 16 % 16)) = some (c.toNat / 16 % 16) :=
            hexVal_hexDigit _ (by omega)
          have e4 : hexVal (hexDigit (c.toNat % 16)) = some (c.toNat % 16) :=
            hexVal_hexDigit _ (by omega)
          have hq : hexQuad (hexDigit (c.toNat / 0x1000 % 16)) (hexDigit (c.toNat / 0x100 % 16))
              (hexDigit (c.toNat / 16 % 16)) (hexDigit (c.toNat % 16)) = some c.toNat := by
            unfold hexQuad
            rw [e1, e2, e3, e4]
            dsimp only
            congr 1
            omega
          rw [ps_u _ _ _ _ _ _ hq]
          rw [if_neg (by omega : ¬(0xD800 ≤ c.toNat ∧ c.toNat < 0xE000))]
          rw [ih]
          simp [Char.ofNat_toNat]
        · rw [show escapeChar c = [c] from by
            unfold escapeChar
            rw [if_neg h1, if_neg h2, if_neg h3]]
          simp only [List.cons_append, List.nil_append]
          rw [ps_plain c _ h1 h2, ih]
          rfl

theorem strMk_data (s : String) : String.mk s.data = s := by
  cases s
  rfl

theorem intChars_head (n : Int) :
    ∃ c cs, intChars n = c :: cs ∧ (c = '-' ∨ c.isDigit = true) := by
  unfold intChars
  by_cases hn : n < 0
  · rw [if_pos hn]
    exact ⟨'-', natDigits n.natAbs, rfl, Or.inl rfl⟩
  · rw [if_neg hn]
    obtain ⟨c, cs, hc, hd⟩ := natDigits_cons n.toNat
    exact ⟨c, cs, hc, Or.inr hd⟩

theorem digit_not_letter {c : Char} (hd : c = '-' ∨ c.isDigit = true) :
    ¬c = 'n' ∧ ¬c = 't' ∧ ¬c = 'f' ∧ ¬c = '"' ∧ ¬c = '\x7b' ∧ ¬c = '[' := by
  rcases hd with h | h
  · subst h
    refine ⟨by decide, by decide, by decide, by decide, by decide, by decide⟩
  · refine ⟨?_, ?_, ?_, ?_, ?_, ?_⟩ <;>
      (intro he; subst he; exact absurd h (by decide))

theorem encVal_cons (v : Value) :
    ∃ c cs, encVal v = c :: cs ∧ ¬c = ']' ∧ ¬c = '\x7d' := by
  cases v with
  | null => exact ⟨'n', ['u', 'l', 'l'], rfl, by decide, by decide⟩
  | bool b =>
    cases b
    · exact ⟨'f', ['a', 'l', 's', 'e'], rfl, by decide, by decide⟩
    · exact ⟨'t', ['r', 'u', 'e'], rfl, by decide, by decide⟩
  | num n =>
    obtain ⟨c, cs, hc, hd⟩ := intChars_head n
    refine ⟨c, cs, hc, ?_, ?_⟩ <;>
      (rcases hd with h | h
       · subst h; decide
       · intro he; subst he; exact absurd h (by decide))
  | str s => exact ⟨'"', _, rfl, by decide, by decide⟩
  | arr xs => exact ⟨'[', encArr xs, rfl, by decide, by decide⟩
  | obj m => exact ⟨'\x7b', encObj m, rfl, by decide, by decide⟩

theorem minsert_fresh (m : Jmap) (k : String) (v : Value) (h : mget m k = none) :
    (minsert m k v).2 = m ++ [(k, v)] := by
  induction m with
  | nil => rfl
  | cons kv rest ih =>
    obtain ⟨ka, w⟩ := kv
    simp only [mget] at h
    by_cases hk : ka = k
    · simp [hk] at h
    · simp only [minsert, if_neg hk, List.cons_append]
      rw [ih (by simpa [hk] using h)]

theorem nodupKeys_iff (m : Jmap) : nodupKeys m = true ↔ (m.map Prod.fst).Nodup := by
  induction m with
  | nil => simp [nodupKeys]
  | cons kv rest ih =>
    obtain ⟨ka, w⟩ := kv
    simp [nodupKeys, List.nodup_cons, ih]

mutual

theorem fuelOf_le : ∀ v : Value, fuelOf v ≤ 2 * (encVal v).length
  | .null => by simp [fuelOf, encVal]
  | .bool b => by cases b <;> simp [fuelOf, encVal]
  | .num n => by
    obtain ⟨c, cs, hc, _⟩ := intChars_head n
    simp [fuelOf, encVal, hc]
    omega
  | .str s => by simp [fuelOf, encVal, encString]; omega
  | .arr xs => by
    have h := fuelOfList_le xs
    simp only [fuelOf, encVal, List.length_cons]
    omega
  | .obj m => by
    have h := fuelOfObj_le m
    simp only [fuelOf, encVal, List.length_cons]
    omega

theorem fuelOfList_le : ∀ xs : List Value, fuelOfList xs ≤ 2 * (encArr xs).length
  | [] => by simp [fuelOfList, encArr]
  | [x] => by
    have h := fuelOf_le x
    simp only [fuelOfList, encArr, List.length_append, List.length_cons, List.length_nil]
    omega
  | x :: y :: rest => by
    have h1 := fuelOf_le x
    have h2 := fuelOfList_le (y :: rest)
    rw [show fuelOfList (x :: y :: rest) = 1 + fuelOf x + fuelOfList (y :: rest) from rfl,
      show encArr (x :: y :: rest) = encVal x ++ ',' :: encArr (y :: rest) from rfl]
    simp only [List.length_append, List.length_cons]
    omega

theorem fuelOfObj_le : ∀ m : List (String × Value), fuelOfObj m ≤ 2 * (encObj m).length
  | [] => by simp [fuelOfObj, encObj]
  | [(k, v)] => by
    have h := fuelOf_le v
    simp only [fuelOfObj, encObj, List.length_append, List.length_cons, List.length_nil]
    omega
  | (k, v) :: e :: rest => by
    have h1 := fuelOf_le v
    have h2 := fuelOfObj_le (e :: rest)
    rw [show fuelOfObj ((k, v) :: e :: rest) = 1 + fuelOf v + fuelOfObj (e :: rest) from rfl,
      show encObj ((k, v) :: e :: rest) = encString k ++ ':' :: encVal v ++ ',' :: encObj (e :: rest)
        from rfl]
    simp only [List.length_append, List.length_cons]
    omega

end

theorem fuelOf_pos (v : Value) : 1 ≤ fuelOf v := by
  cases v <;> simp [fuelOf]

theorem pv_step (F : Nat) (c : Char) (rest : List Char) :
    parseVal (F + 1) (c :: rest) =
      (if c = 'n' then
        match rest with
        | u :: l1 :: l2 :: r =>
          if u = 'u' ∧ l1 = 'l' ∧ l2 = 'l' then some (.null, r) else none
        | _ => none
      else if c = 't' then
        match rest with
        | r1 :: u :: e :: r =>
          if r1 = 'r' ∧ u = 'u' ∧ e = 'e' then some (.bool true, r) else none
        | _ => none
      else if c = 'f' then
        match rest with
        | a :: l1 :: s :: e :: r =>
          if a = 'a' ∧ l1 = 'l' ∧ s = 's' ∧ e = 'e' then some (.bool false, r) else none
        | _ => none
      else if c = '"' then
        (parseStr rest).map (fun r => (.str (String.mk r.1), r.2))
      else if c = '\x7b' then
        match rest with
        | [] => none
        | c2 :: rest2 =>
          if c2 = '\x7d' then some (.obj [], rest2) else parseObjEntries F (c2 :: rest2) []
      else if c = '[' then
        match rest with
        | [] => none
        | c2 :: rest2 =>
          if c2 = ']' then some (.arr [], rest2) else parseArrElems F (c2 :: rest2) []
      else if c = '-' ∨ c.isDigit then
        (parseIntChars (c :: rest)).map (fun r => (.num r.1, r.2))
      else none) := rfl

theorem pv_null (F : Nat) (r : List Char) :
    parseVal (F + 1) ('n' :: 'u' :: 'l' :: 'l' :: r) = some (.null, r) := rfl

theorem pv_true (F : Nat) (r : List Char) :
    parseVal (F + 1) ('t' :: 'r' :: 'u' :: 'e' :: r) = some (.bool true, r) := rfl

theorem pv_false (F : Nat) (r : List Char) :
    parseVal (F + 1) ('f' :: 'a' :: 'l' :: 's' :: 'e' :: r) = some (.bool false, r) := rfl

theorem pv_str (F : Nat) (rest : List Char) :
    parseVal (F + 1) ('"' :: rest) =
      (parseStr rest).map (fun r => (.str (String.mk r.1), r.2)) := rfl

theorem pv_obj_empty (F : Nat) (r : List Char) :
    parseVal (F + 1) ('\x7b' :: '\x7d' :: r) = some (.obj [], r) := rfl

theorem pv_obj_go (F : Nat) (c2 : Char) (rest2 : List Char) (h : ¬c2 = '\x7d') :
    parseVal (F + 1) ('\x7b' :: c2 :: rest2) = parseObjEntries F (c2 :: rest2) [] := by
  rw [pv_step]
  simp [h]

theorem pv_arr_empty (F : Nat) (r : List Char) :
    parseVal (F + 1) ('[' :: ']' :: r) = some (.arr [], r) := rfl

theorem pv_arr_go (F : Nat) (c2 : Char) (rest2 : List Char) (h : ¬c2 = ']') :
    parseVal (F + 1) ('[' :: c2 :: rest2) = parseArrElems F (c2 :: rest2) [] := by
  rw [pv_step]
  simp [h]

theorem pv_num (F : Nat) (c : Char) (rest : List Char) (hd : c = '-' ∨ c.isDigit = true) :
    parseVal (F + 1) (c :: rest) =
      (parseIntChars (c :: rest)).map (fun r => (.num r.1, r.2)) := by
  obtain ⟨n1, n2, n3, n4, n5, n6⟩ := digit_not_letter hd
  rw [pv_step]
  simp only [if_neg n1, if_neg n2, if_neg n3, if_neg n4, if_neg n5, if_neg n6, if_pos hd]

theorem pae_step (F : Nat) (input : List Char) (acc : List Value) :
    parseArrElems (F + 1) input acc =
      match parseVal F input with
      | none => none
      | some (v, rest) =>
        match rest with
        | [] => none
        | s :: rest2 =>
          if s = ',' then parseArrElems F rest2 (acc ++ [v])
          else if s = ']' then some (.arr (acc ++ [v]), rest2)
          else none := rfl

theorem poe_step (F : Nat) (q : Char) (rest : List Char) (acc : Jmap) :
    parseObjEntries (F + 1) (q :: rest) acc =
      (if q = '"' then
        match parseStr rest with
        | none => none
        | some (k, rest2) =>
          match rest2 with
          | [] => none
          | col :: rest3 =>
            if col = ':' then
              match parseVal F rest3 with
              | none => none
              | some (v, rest4) =>
                match rest4 with
                | [] => none
                | s :: rest5 =>
                  if s = ',' then parseObjEntries F rest5 (minsert acc (String.mk k) v).2
                  else if s = '\x7d' then some (.obj (minsert acc (String.mk k) v).2, rest5)
                  else none
            else none
      else none) := rfl

/-- Separator-and-continuation after an array element. -/
def arrSep (t : List Value) : List Char :=
  match t with
  | [] => [']']
  | _ => ',' :: encArr t

/-- Separator-and-continuation after an object entry. -/
def objSep (t : Jmap) : List Char :=
  match t with
  | [] => ['\x7d']
  | _ => ',' :: encObj t

theorem encArr_cons (x : Value) (t : List Value) :
    encArr (x :: t) = encVal x ++ arrSep t := by
  cases t <;> rfl

theorem encObj_cons (k : String) (v : Value) (t : Jmap) :
    encObj ((k, v) :: t) = encString k ++ ':' :: encVal v ++ objSep t := by
  cases t <;> rfl

theorem parse_enc_joint : (F : Nat) →
    (∀ v rest, wf v = true → fuelOf v ≤ F → numSafe rest →
        parseVal F (encVal v ++ rest) = some (v, rest)) ∧
    (∀ xs acc rest, wfList xs = true → fuelOfList xs ≤ F → xs ≠ [] →
        parseArrElems F (encArr xs ++ rest) acc = some (.arr (acc ++ xs), rest)) ∧
    (∀ m acc rest, nodupKeys (acc ++ m) = true → wfObj m = true → fuelOfObj m ≤ F → m ≠ [] →
        parseObjEntries F (encObj m ++ rest) acc = some (.obj (acc ++ m), rest))
  | 0 => by
    refine ⟨?_, ?_, ?_⟩
    · intro v rest _ hf _
      exact absurd hf (by have := fuelOf_pos v; omega)
    · intro xs acc rest _ hf hne
      cases xs with
      | nil => exact absurd rfl hne
      | cons x t =>
        exact absurd hf (by simp only [fuelOfList]; omega)
    · intro m acc rest _ _ hf hne
      cases m with
      | nil => exact absurd rfl hne
      | cons e t =>
        obtain ⟨k, v⟩ := e
        exact absurd hf (by simp only [fuelOfObj]; omega)
  | F + 1 => by
    obtain ⟨ihA, ihB, ihC⟩ := parse_enc_joint F
    refine ⟨?_, ?_, ?_⟩
    · intro v rest hwf hf hnum
      cases v with
      | null => exact pv_null F rest
      | bool b => cases b
                  · exact pv_false F rest
                  · exact pv_true F rest
      | num n =>
        obtain ⟨c, cs, hc, hd⟩ := intChars_head n
        rw [show encVal (.num n) = intChars n from rfl, hc, List.cons_append]
        rw [pv_num F c _ hd]
        rw [show c :: (cs ++ rest) = (c :: cs) ++ rest from rfl, ← hc]
        rw [parseIntChars_enc n rest hnum]
        rfl
      | str s =>
        rw [show encVal (.str s) = '"' :: ((s.data.map escapeChar).flatten ++ ['"']) from rfl]
        rw [List.cons_append, pv_str, List.append_assoc]
        rw [show (['"'] ++ rest : List Char) = '"' :: rest from rfl]
        rw [parseStr_enc]
        simp [strMk_data]
      | arr xs =>
        cases xs with
        | nil =>
          rw [show encVal (.arr []) = ['[', ']'] from rfl]
          exact pv_arr_empty F rest
        | cons x t =>
          rw [show encVal (.arr (x :: t)) = '[' :: encArr (x :: t) from rfl, List.cons_append]
          obtain ⟨c0, cs0, hc0, hne1, _⟩ := encVal_cons x
          have hexp : encArr (x :: t) ++ rest = c0 :: (cs0 ++ (arrSep t ++ rest)) := by
            rw [encArr_cons, hc0]
            simp
          rw [hexp, pv_arr_go F c0 _ hne1, ← hexp]
          have hbf : fuelOfList (x :: t) ≤ F := by
            have : fuelOf (.arr (x :: t)) = 1 + fuelOfList (x :: t) := rfl
            omega
          have hbw : wfList (x :: t) = true := hwf
          rw [ihB (x :: t) [] rest hbw hbf (by simp)]
          simp
      | obj m =>
        cases m with
        | nil =>
          rw [show encVal (.obj []) = ['\x7b', '\x7d'] from rfl]
          exact pv_obj_empty F rest
        | cons e t =>
          obtain ⟨k, v⟩ := e
          rw [show encVal (.obj ((k, v) :: t)) = '\x7b' :: encObj ((k, v) :: t) from rfl,
            List.cons_append]
          have hexp : encObj ((k, v) :: t) ++ rest =
              '"' :: (((k.data.map escapeChar).flatten ++ ['"']) ++
                (':' :: (encVal v ++ (objSep t ++ rest)))) := by
            rw [encObj_cons]
            rw [show encString k = '"' :: ((k.data.map escapeChar).flatten ++ ['"']) from rfl]
            simp
          rw [hexp, pv_obj_go F '"' _ (by decide), ← hexp]
          have hbf : fuelOfObj ((k, v) :: t) ≤ F := by
            have : fuelOf (.obj ((k, v) :: t)) = 1 + fuelOfObj ((k, v) :: t) := rfl
            omega
          have hwobj : wfObj ((k, v) :: t) = true := by
            have : wf (.obj ((k, v) :: t)) = (nodupKeys ((k, v) :: t) && wfObj ((k, v) :: t)) :=
              rfl
            rw [this, Bool.and_eq_true] at hwf
            exact hwf.2
          have hnodup : nodupKeys ([] ++ (k, v) :: t) = true := by
            have : wf (.obj ((k, v) :: t)) = (nodupKeys ((k, v) :: t) && wfObj ((k, v) :: t)) :=
              rfl
            rw [this, Bool.and_eq_true] at hwf
            simpa using hwf.1
          rw [ihC ((k, v) :: t) [] rest hnodup hwobj hbf (by simp)]
          simp
    · intro xs acc rest hwf hf hne
      cases xs with
      | nil => exact absurd rfl hne
      | cons x t =>
        rw [encArr_cons, List.append_assoc]
        have hfx : fuelOf x ≤ F := by
          have : fuelOfList (x :: t) = 1 + fuelOf x + fuelOfList t := rfl
          omega
        have hft : fuelOfList t ≤ F := by
          have : fuelOfList (x :: t) = 1 + fuelOf x + fuelOfList t := rfl
          omega
        have hwx : wf x = true := by
          have : wfList (x :: t) = (wf x && wfList t) := rfl
          rw [this, Bool.and_eq_true] at hwf
          exact hwf.1
        have hwt : wfList t = true := by
          have : wfList (x :: t) = (wf x && wfList t) := rfl
          rw [this, Bool.and_eq_true] at hwf
          exact hwf.2
        have hnumtail : numSafe (arrSep t ++ rest) := by
          cases t <;> simp [arrSep, numSafe]
        rw [pae_step]
        rw [ihA x (arrSep t ++ rest) hwx hfx hnumtail]
        cases t with
        | nil =>
          simp [arrSep]
        | cons y t2 =>
          simp only [arrSep]
          rw [show ((',' :: encArr (y :: t2)) ++ rest : List Char) =
            ',' :: (encArr (y :: t2) ++ rest) from rfl]
          simp only [if_pos rfl]
          rw [ihB (y :: t2) (acc ++ [x]) rest hwt hft (by simp)]
          simp
    · intro m acc rest hnd hwf hf hne
      cases m with
      | nil => exact absurd rfl hne
      | cons e t =>
        obtain ⟨k, v⟩ := e
        have hmga : mget acc k = none := by
          rw [nodupKeys_iff] at hnd
          rw [List.map_append, List.nodup_append] at hnd
          rw [mget_eq_none_iff]
          intro hk
          exact hnd.2.2 hk (by simp)
        have hnd2 : nodupKeys ((acc ++ [(k, v)]) ++ t) = true := by
          rw [List.append_assoc]
          exact hnd
        have hfv : fuelOf v ≤ F := by
          have : fuelOfObj ((k, v) :: t) = 1 + fuelOf v + fuelOfObj t := rfl
          omega
        have hft : fuelOfObj t ≤ F := by
          have : fuelOfObj ((k, v) :: t) = 1 + fuelOf v + fuelOfObj t := rfl
          omega
        have hwv : wf v = true := by
          have : wfObj ((k, v) :: t) = (wf v && wfObj t) := rfl
          rw [this, Bool.and_eq_true] at hwf
          exact hwf.1
        have hwt : wfObj t = true := by
          have : wfObj ((k, v) :: t) = (wf v && wfObj t) := rfl
          rw [this, Bool.and_eq_true] at hwf
          exact hwf.2
        have hnumtail : numSafe (objSep t ++ rest) := by
          cases t <;> simp [objSep, numSafe]
        rw [encObj_cons]
        rw [show encString k = '"' :: ((k.data.map escapeChar).flatten ++ ['"']) from rfl]
        rw [show (('"' :: ((k.data.map escapeChar).flatten ++ ['"'])) ++
              ':' :: encVal v ++ objSep t) ++ rest =
            '"' :: ((k.data.map escapeChar).flatten ++
              ('"' :: (':' :: (encVal v ++ (objSep t ++ rest))))) from by simp]
        rw [poe_step, if_pos rfl]
        rw [parseStr_enc k.data (':' :: (encVal v ++ (objSep t ++ rest)))]
        simp only [if_pos rfl]
        rw [ihA v (objSep t ++ rest) hwv hfv hnumtail]
        simp only [if_true, strMk_data, minsert_fresh acc k v hmga]
        cases t with
        | nil =>
          simp [objSep]
        | cons e2 t2 =>
          simp only [objSep]
          rw [show ((',' :: encObj (e2 :: t2)) ++ rest : List Char) =
            ',' :: (encObj (e2 :: t2) ++ rest) from rfl]
          simp only [if_pos rfl]
          rw [ihC (e2 :: t2) (acc ++ [(k, v)]) rest hnd2 hwt hft (by simp)]
          simp

theorem jsonParse_encVal (v : Value) (hwf : wf v = true) : jsonParse (encVal v) = some v := by
  unfold jsonParse
  have hA := (parse_enc_joint (2 * (encVal v).length + 2)).1
  have hr := hA v [] hwf (by have := fuelOf_le v; omega) trivial
  rw [List.append_nil] at hr
  rw [hr]

/-- The base64url alphabet. -/
def b64Chars : List Char :=
  "ABCDEFGHIJKLMNOPQRSTUVWXYZabcdefghijklmnopqrstuvwxyz0123456789-_".toList

/-- Character of a 6-bit group. -/
def b64Char (n : Nat) : Char := b64Chars.getD n 'A'

/-- 6-bit value of a base64url character. -/
def b64Val (c : Char) : Option Nat := b64Chars.findIdx? (fun x => x == c)

/-- Model of `multibase::Base::Base64Url.encode` (unpadded base64url) over a
byte list. -/
def b64Encode : List Nat → List Char
  | [] => []
  | [a] => [b64Char (a / 4), b64Char (a % 4 * 16)]
  | [a, b] => [b64Char (a / 4), b64Char (a % 4 * 16 + b / 16), b64Char (b % 16 * 4)]
  | a :: b :: c :: rest =>
    b64Char (a / 4) :: b64Char (a % 4 * 16 + b / 16) :: b64Char (b % 16 * 4 + c / 64) ::
      b64Char (c % 64) :: b64Encode rest

/-- Model of `multibase::Base::Base64Url.decode` over the character list of
the encoded string. -/
def b64Decode : List Char → Option (List Nat)
  | [] => some []
  | [_] => none
  | [w, x] =>
    (b64Val w).bind fun a => (b64Val x).map fun b => [a * 4 + b / 16]
  | [w, x, y] =>
    (b64Val w).bind fun a => (b64Val x).bind fun b => (b64Val y).map fun c =>
      [a * 4 + b / 16, b % 16 * 16 + c / 4]
  | w :: x :: y :: z :: rest =>
    (b64Val w).bind fun a => (b64Val x).bind fun b => (b64Val y).bind fun c =>
      (b64Val z).bind fun d => (b64Decode rest).map fun tail =>
        (a * 4 + b / 16) :: (b % 16 * 16 + c / 4) :: (c % 4 * 64 + d) :: tail

theorem b64Val_b64Char : forall n, n < 64 -> b64Val (b64Char n) = some n := by decide

theorem b64Decode_chunk (w x y z : Char) (rest : List Char) :
    b64Decode (w :: x :: y :: z :: rest) =
      ((b64Val w).bind fun a => (b64Val x).bind fun b => (b64Val y).bind fun c =>
        (b64Val z).bind fun d => (b64Decode rest).map fun tail =>
          (a * 4 + b / 16) :: (b % 16 * 16 + c / 4) :: (c % 4 * 64 + d) :: tail) := rfl

theorem b64_round : forall bs : List Nat, (forall b, b ∈ bs -> b < 256) ->
    b64Decode (b64Encode bs) = some bs
  | [] => fun _ => rfl
  | [a] => by
    intro h
    have ha : a < 256 := h a (by simp)
    rw [show b64Encode [a] = [b64Char (a / 4), b64Char (a % 4 * 16)] from rfl]
    rw [show b64Decode [b64Char (a / 4), b64Char (a % 4 * 16)] =
      ((b64Val (b64Char (a / 4))).bind fun x => (b64Val (b64Char (a % 4 * 16))).map fun b =>
        [x * 4 + b / 16]) from rfl]
    rw [b64Val_b64Char _ (by omega), b64Val_b64Char _ (by omega)]
    simp only [Option.some_bind, Option.map_some]
    simp
    omega
  | [a, b] => by
    intro h
    have ha : a < 256 := h a (by simp)
    have hb : b < 256 := h b (by simp)
    rw [show b64Encode [a, b] =
      [b64Char (a / 4), b64Char (a % 4 * 16 + b / 16), b64Char (b % 16 * 4)] from rfl]
    rw [show b64Decode [b64Char (a / 4), b64Char (a % 4 * 16 + b / 16), b64Char (b % 16 * 4)] =
      ((b64Val (b64Char (a / 4))).bind fun x => (b64Val (b64Char (a % 4 * 16 + b / 16))).bind
        fun y => (b64Val (b64Char (b % 16 * 4))).map fun z =>
          [x * 4 + y / 16, y % 16 * 16 + z / 4]) from rfl]
    rw [b64Val_b64Char _ (by omega), b64Val_b64Char _ (by omega), b64Val_b64Char _ (by omega)]
    simp only [Option.some_bind, Option.map_some]
    simp
    constructor <;> omega
  | a :: b :: c :: rest => by
    intro h
    have ha : a < 256 := h a (by simp)
    have hb : b < 256 := h b (by simp)
    have hc : c < 256 := h c (by simp)
    have hrest : forall x, x ∈ rest -> x < 256 := fun x hx => h x (by simp [hx])
    rw [show b64Encode (a :: b :: c :: rest) =
      b64Char (a / 4) :: b64Char (a % 4 * 16 + b / 16) :: b64Char (b % 16 * 4 + c / 64) ::
        b64Char (c % 64) :: b64Encode rest from rfl]
    rw [b64Decode_chunk]
    rw [b64Val_b64Char _ (by omega), b64Val_b64Char _ (by omega),
      b64Val_b64Char _ (by omega), b64Val_b64Char _ (by omega)]
    rw [b64_round rest hrest]
    simp only [Option.some_bind, Option.map_some]
    have e1 : a / 4 * 4 + (a % 4 * 16 + b / 16) / 16 = a := by omega
    have e2 : (a % 4 * 16 + b / 16) % 16 * 16 + (b % 16 * 4 + c / 64) / 4 = b := by omega
    have e3 : (b % 16 * 4 + c / 64) % 4 * 64 + c % 64 = c := by omega
    simp [e1, e2, e3]

mutual

/-- UTF-8 decoding to characters, dispatching on the lead byte; models
`String::from_utf8` (rejecting invalid sequences, overlong forms, surrogates
and out-of-range values). -/
def utf8Dec : List Nat → Option (List Char)
  | [] => some []
  | b :: rest =>
    if b < 0x80 then (utf8Dec rest).map (fun cs => Char.ofNat b :: cs)
    else if b < 0xC2 then none
    else if b < 0xE0 then utf8Dec2 b rest
    else if b < 0xF0 then utf8Dec3 b rest
    else if b < 0xF5 then utf8Dec4 b rest
    else none

/-- Continuation of a two-byte UTF-8 sequence. -/
def utf8Dec2 (b : Nat) : List Nat → Option (List Char)
  | b2 :: rest2 =>
    if 0x80 ≤ b2 ∧ b2 < 0xC0 then
      (utf8Dec rest2).map (fun cs => Char.ofNat ((b - 0xC0) * 0x40 + (b2 - 0x80)) :: cs)
    else none
  | [] => none

/-- Continuation of a three-byte UTF-8 sequence. -/
def utf8Dec3 (b : Nat) : List Nat → Option (List Char)
  | b2 :: b3 :: rest2 =>
    if (0x80 ≤ b2 ∧ b2 < 0xC0) ∧ (0x80 ≤ b3 ∧ b3 < 0xC0) then
      if (b - 0xE0) * 0x1000 + (b2 - 0x80) * 0x40 + (b3 - 0x80) < 0x800 ∨
          (0xD800 ≤ (b - 0xE0) * 0x1000 + (b2 - 0x80) * 0x40 + (b3 - 0x80) ∧
            (b - 0xE0) * 0x1000 + (b2 - 0x80) * 0x40 + (b3 - 0x80) < 0xE000) then none
      else (utf8Dec rest2).map
        (fun cs => Char.ofNat ((b - 0xE0) * 0x1000 + (b2 - 0x80) * 0x40 + (b3 - 0x80)) :: cs)
    else none
  | _ => none

/-- Continuation of a four-byte UTF-8 sequence. -/
def utf8Dec4 (b : Nat) : List Nat → Option (List Char)
  | b2 :: b3 :: b4 :: rest2 =>
    if (0x80 ≤ b2 ∧ b2 < 0xC0) ∧ (0x80 ≤ b3 ∧ b3 < 0xC0) ∧ (0x80 ≤ b4 ∧ b4 < 0xC0) then
      if (b - 0xF0) * 0x40000 + (b2 - 0x80) * 0x1000 + (b3 - 0x80) * 0x40 + (b4 - 0x80)
            < 0x10000 ∨
          0x110000 ≤ (b - 0xF0) * 0x40000 + (b2 - 0x80) * 0x1000 + (b3 - 0x80) * 0x40 +
            (b4 - 0x80) then none
      else (utf8Dec rest2).map
        (fun cs => Char.ofNat ((b - 0xF0) * 0x40000 + (b2 - 0x80) * 0x1000 +
          (b3 - 0x80) * 0x40 + (b4 - 0x80)) :: cs)
    else none
  | _ => none

end

theorem utf8Dec_step (b : Nat) (rest : List Nat) :
    utf8Dec (b :: rest) =
      (if b < 0x80 then (utf8Dec rest).map (fun cs => Char.ofNat b :: cs)
      else if b < 0xC2 then none
      else if b < 0xE0 then utf8Dec2 b rest
      else if b < 0xF0 then utf8Dec3 b rest
      else if b < 0xF5 then utf8Dec4 b rest
      else none) := rfl

theorem utf8EncChar_lt (n : Nat) (hn : n < 0x110000) : ∀ b ∈ utf8EncChar n, b < 256 := by
  intro b hb
  unfold utf8EncChar at hb
  by_cases h1 : n < 0x80
  · rw [if_pos h1] at hb
    simp at hb
    omega
  · rw [if_neg h1] at hb
    by_cases h2 : n < 0x800
    · rw [if_pos h2] at hb
      simp at hb
      rcases hb with hb | hb <;> omega
    · rw [if_neg h2] at hb
      by_cases h3 : n < 0x10000
      · rw [if_pos h3] at hb
        simp at hb
        rcases hb with hb | hb | hb <;> omega
      · rw [if_neg h3] at hb
        simp at hb
        rcases hb with hb | hb | hb | hb <;> omega

theorem charsBytes_lt (cs : List Char) : ∀ b ∈ charsBytes cs, b < 256 := by
  intro b hb
  unfold charsBytes at hb
  rw [List.mem_flatten] at hb
  obtain ⟨l, hl, hbl⟩ := hb
  rw [List.mem_map] at hl
  obtain ⟨c, _, rfl⟩ := hl
  have := char_valid_ranges c
  exact utf8EncChar_lt c.toNat (by omega) b hbl

theorem charsBytes_cons (c : Char) (cs : List Char) :
    charsBytes (c :: cs) = utf8EncChar c.toNat ++ charsBytes cs := by
  simp [charsBytes]

theorem utf8Dec_charsBytes : ∀ cs : List Char, utf8Dec (charsBytes cs) = some cs
  | [] => rfl
  | c :: cs => by
    rw [charsBytes_cons]
    have hv := char_valid_ranges c
    have hofnat := Char.ofNat_toNat c
    unfold utf8EncChar
    by_cases h1 : c.toNat < 0x80
    · rw [if_pos h1]
      rw [show ([c.toNat] : List Nat) ++ charsBytes cs = c.toNat :: charsBytes cs from rfl]
      rw [utf8Dec_step, if_pos h1, utf8Dec_charsBytes cs]
      simp [hofnat]
    · rw [if_neg h1]
      by_cases h2 : c.toNat < 0x800
      · rw [if_pos h2]
        rw [show ([0xC0 + c.toNat / 0x40, 0x80 + c.toNat % 0x40] : List Nat) ++ charsBytes cs =
          (0xC0 + c.toNat / 0x40) :: (0x80 + c.toNat % 0x40) :: charsBytes cs from rfl]
        rw [utf8Dec_step]
        rw [if_neg (by omega), if_neg (by omega), if_pos (by omega)]
        rw [utf8Dec2]
        rw [if_pos (by constructor <;> omega)]
        rw [utf8Dec_charsBytes cs]
        have harith : (0xC0 + c.toNat / 0x40 - 0xC0) * 0x40 + (0x80 + c.toNat % 0x40 - 0x80) =
            c.toNat := by omega
        have harith2 : c.toNat / 0x40 * 0x40 + c.toNat % 0x40 = c.toNat := by omega
        simp [harith, harith2, hofnat]
      · rw [if_neg h2]
        by_cases h3 : c.toNat < 0x10000
        · rw [if_pos h3]
          rw [show ([0xE0 + c.toNat / 0x1000, 0x80 + c.toNat / 0x40 % 0x40,
              0x80 + c.toNat % 0x40] : List Nat) ++ charsBytes cs =
            (0xE0 + c.toNat / 0x1000) :: (0x80 + c.toNat / 0x40 % 0x40) ::
              (0x80 + c.toNat % 0x40) :: charsBytes cs from rfl]
          rw [utf8Dec_step]
          rw [if_neg (by omega), if_neg (by omega), if_neg (by omega), if_pos (by omega)]
          rw [utf8Dec3]
          rw [if_pos (by refine ⟨⟨by omega, by omega⟩, by omega, by omega⟩)]
          have harith : (0xE0 + c.toNat / 0x1000 - 0xE0) * 0x1000 +
              (0x80 + c.toNat / 0x40 % 0x40 - 0x80) * 0x40 + (0x80 + c.toNat % 0x40 - 0x80) =
              c.toNat := by omega
          rw [harith]
          rw [if_neg (by omega)]
          rw [utf8Dec_charsBytes cs]
          simp [hofnat]
        · rw [if_neg h3]
          rw [show ([0xF0 + c.toNat / 0x40000, 0x80 + c.toNat / 0x1000 % 0x40,
              0x80 + c.toNat / 0x40 % 0x40, 0x80 + c.toNat % 0x40] : List Nat) ++ charsBytes cs =
            (0xF0 + c.toNat / 0x40000) :: (0x80 + c.toNat / 0x1000 % 0x40) ::
              (0x80 + c.toNat / 0x40 % 0x40) :: (0x80 + c.toNat % 0x40) ::
                charsBytes cs from rfl]
          rw [utf8Dec_step]
          rw [if_neg (by omega), if_neg (by omega), if_neg (by omega), if_neg (by omega),
            if_pos (by omega)]
          rw [utf8Dec4]
          rw [if_pos (by refine ⟨⟨by omega, by omega⟩, ⟨by omega, by omega⟩, by omega, by omega⟩)]
          have harith : (0xF0 + c.toNat / 0x40000 - 0xF0) * 0x40000 +
              (0x80 + c.toNat / 0x1000 % 0x40 - 0x80) * 0x1000 +
              (0x80 + c.toNat / 0x40 % 0x40 - 0x80) * 0x40 + (0x80 + c.toNat % 0x40 - 0x80) =
              c.toNat := by omega
          rw [harith]
          rw [if_neg (by omega)]
          rw [utf8Dec_charsBytes cs]
          simp [hofnat]

/-- The algorithm identifier string of this scheme (`CsdJwtInstance::ALGORITHM`). -/
def ALGORITHM : String := "CSD-JWT"

/-- `SdAlgorithm::convert_map_to_payload_and_header`: builds a JWS header
carrying the algorithm name and a payload from the map.  Josekit's
`JwtPayload::from_map` conversion is modelled as total. -/
def convert_map_to_payload_and_header (map : Jmap) : Except String (Jmap × Jmap) :=
  .ok ([("alg", .str ALGORITHM)], map)

/-- `SdAlgorithm::encode_jwt`: unsigned compact serialization
base64url(header).base64url(payload). with an empty signature part, modelling
josekit's `encode_unsecured`. -/
def encode_jwt (map : Jmap) : Except String String :=
  match convert_map_to_payload_and_header map with
  | .error e => .error e
  | .ok (header, payload) =>
    .ok (String.mk (b64Encode (charsBytes (encVal (.obj header))) ++
      '.' :: (b64Encode (charsBytes (encVal (.obj payload))) ++ ['.'])))

/-- Split a character list at every dot. -/
def splitDot : List Char → List (List Char)
  | [] => [[]]
  | c :: rest =>
    if c = '.' then [] :: splitDot rest
    else
      match splitDot rest with
      | [] => [[c]]
      | p :: ps => (c :: p) :: ps

/-- Decode one base64url-encoded JSON-object part of a JWT. -/
def decodePart (part : List Char) : Except String Jmap :=
  match b64Decode part with
  | none => .error "Failed to decode jwt"
  | some bytes =>
    match utf8Dec bytes with
    | none => .error "Failed to decode jwt"
    | some chars =>
      match jsonParse chars with
      | some (.obj m) => .ok m
      | _ => .error "Failed to decode jwt"

/-- `SdAlgorithm::decode_jwt`: split the compact form at the dots and decode
the payload part, modelling josekit's `decode_unsecured`. -/
def decode_jwt (jwt : String) : Except String Jmap :=
  match splitDot jwt.data with
  | [_, p, _] => decodePart p
  | _ => .error "Failed to decode jwt"

/-- Injective numeric digest of a character list; stands in for the one-way
hashes applied by the external libraries, whose collision-freeness the
specification assumes. -/
def chars2Nat (cs : List Char) : Nat :=
  cs.foldl (fun acc c => acc * 0x110000 + c.toNat + 1) 0

/-- Little-endian base-128 byte serialization of a natural number, used to
model the `CanonicalSerialize` byte encodings of the accumulator library. -/
def lebEncodeF : Nat → Nat → List Nat
  | 0, n => [n]
  | fuel + 1, n => if n < 128 then [n] else (128 + n % 128) :: lebEncodeF fuel (n / 128)

def lebEncode (n : Nat) : List Nat := lebEncodeF n n

/-- Inverse of `lebEncode`: reads one encoded number, returning the rest. -/
def lebDecode : List Nat → Option (Nat × List Nat)
  | [] => none
  | b :: rest =>
    if b < 128 then some (b, rest)
    else
      match lebDecode rest with
      | some (m, r) => some (m * 128 + (b - 128), r)
      | none => none

/-- Modelled from the spec: the external ES256 envelope-signing primitive.
Key material is a natural number, and a matching public/private key pair is
modelled as the same number; the signature is a key-dependent digest of the
signing input, base64url-encoded and therefore dot-free. -/
def signChars (data : List Char) (key : Nat) : List Char :=
  b64Encode (lebEncode (chars2Nat data + key))

/-- `SdAlgorithm::encode_and_sign_jwt`: compact JWS
base64url(header).base64url(payload).signature signed with the holder's
private key. -/
def encode_and_sign_jwt (map : Jmap) (private_key : Nat) : Except String String :=
  match convert_map_to_payload_and_header map with
  | .error e => .error e
  | .ok (header, payload) =>
    let h := b64Encode (charsBytes (encVal (.obj header)))
    let p := b64Encode (charsBytes (encVal (.obj payload)))
    .ok (String.mk (h ++ '.' :: (p ++ '.' :: signChars (h ++ '.' :: p) private_key)))

/-- `SdAlgorithm::decode_and_verify_jwt`: checks the signature against the
holder's public key, then decodes the payload; a failed signature check is an
error distinct from structural decode failures. -/
def decode_and_verify_jwt (jwt : String) (public_key : Nat) : Except String Jmap :=
  match splitDot jwt.data with
  | [h, p, s] =>
    if s = signChars (h ++ '.' :: p) public_key then decodePart p
    else .error "Failed to decode and verify jwt"
  | _ => .error "Failed to decode and verify jwt"

theorem b64Char_ne_dot (n : Nat) : ¬b64Char n = '.' := by
  unfold b64Char
  by_cases h : n < b64Chars.length
  · have hm : b64Chars.getD n 'A' ∈ b64Chars := by
      rw [List.getD_eq_getElem _ _ h]
      exact List.getElem_mem _
    have hall : ∀ x ∈ b64Chars, ¬x = '.' := by decide
    exact hall _ hm
  · rw [List.getD_eq_default _ _ (by omega)]
    decide

theorem b64Encode_no_dot : ∀ bs : List Nat, ∀ c ∈ b64Encode bs, ¬c = '.'
  | [] => by simp [b64Encode]
  | [a] => by
    intro c hc
    rw [show b64Encode [a] = [b64Char (a / 4), b64Char (a % 4 * 16)] from rfl] at hc
    simp at hc
    rcases hc with rfl | rfl <;> exact b64Char_ne_dot _
  | [a, b] => by
    intro c hc
    rw [show b64Encode [a, b] =
      [b64Char (a / 4), b64Char (a % 4 * 16 + b / 16), b64Char (b % 16 * 4)] from rfl] at hc
    simp at hc
    rcases hc with rfl | rfl | rfl <;> exact b64Char_ne_dot _
  | a :: b :: c0 :: rest => by
    intro c hc
    rw [show b64Encode (a :: b :: c0 :: rest) =
      b64Char (a / 4) :: b64Char (a % 4 * 16 + b / 16) :: b64Char (b % 16 * 4 + c0 / 64) ::
        b64Char (c0 % 64) :: b64Encode rest from rfl] at hc
    simp at hc
    rcases hc with rfl | rfl | rfl | rfl | hmem
    · exact b64Char_ne_dot _
    · exact b64Char_ne_dot _
    · exact b64Char_ne_dot _
    · exact b64Char_ne_dot _
    · exact b64Encode_no_dot rest c hmem

theorem splitDot_step (c : Char) (rest : List Char) :
    splitDot (c :: rest) =
      (if c = '.' then [] :: splitDot rest
      else
        match splitDot rest with
        | [] => [[c]]
        | p :: ps => (c :: p) :: ps) := rfl

theorem splitDot_nodot (xs : List Char) (h : ∀ c ∈ xs, ¬c = '.') :
    splitDot xs = [xs] := by
  induction xs with
  | nil => rfl
  | cons c rest ih =>
    rw [splitDot_step]
    rw [if_neg (h c (by simp))]
    rw [ih (fun x hx => h x (by simp [hx]))]

theorem splitDot_append (xs rest : List Char) (h : ∀ c ∈ xs, ¬c = '.') :
    splitDot (xs ++ '.' :: rest) = xs :: splitDot rest := by
  induction xs with
  | nil =>
    rw [List.nil_append, splitDot_step]
    simp
  | cons c t ih =>
    rw [List.cons_append, splitDot_step]
    rw [if_neg (h c (by simp))]
    rw [ih (fun x hx => h x (by simp [hx]))]

theorem decodePart_enc (m : Jmap) (hwf : wf (.obj m) = true) :
    decodePart (b64Encode (charsBytes (encVal (.obj m)))) = .ok m := by
  have h1 : b64Decode (b64Encode (charsBytes (encVal (.obj m)))) =
      some (charsBytes (encVal (.obj m))) :=
    b64_round _ (fun b hb => charsBytes_lt _ b hb)
  have h2 := utf8Dec_charsBytes (encVal (.obj m))
  have h3 := jsonParse_encVal _ hwf
  simp only [decodePart, h1, h2, h3]

theorem decode_encode_jwt (map : Jmap) (hwf : wf (.obj map) = true) :
    ∃ jwt, encode_jwt map = .ok jwt ∧ decode_jwt jwt = .ok map := by
  refine ⟨_, rfl, ?_⟩
  unfold decode_jwt
  rw [show (String.mk (b64Encode (charsBytes (encVal (.obj [("alg", .str ALGORITHM)]))) ++
      '.' :: (b64Encode (charsBytes (encVal (.obj map))) ++ ['.']))).data =
    b64Encode (charsBytes (encVal (.obj [("alg", .str ALGORITHM)]))) ++
      '.' :: (b64Encode (charsBytes (encVal (.obj map))) ++ ['.']) from rfl]
  rw [splitDot_append _ _ (b64Encode_no_dot _)]
  rw [show (b64Encode (charsBytes (encVal (.obj map))) ++ ['.'] : List Char) =
    b64Encode (charsBytes (encVal (.obj map))) ++ '.' :: [] from rfl]
  rw [splitDot_append _ _ (b64Encode_no_dot _)]
  rw [show splitDot [] = [[]] from rfl]
  exact decodePart_enc map hwf

theorem decode_encode_signed_jwt (map : Jmap) (key : Nat) (hwf : wf (.obj map) = true) :
    ∃ jwt, encode_and_sign_jwt map key = .ok jwt ∧
      decode_and_verify_jwt jwt key = .ok map := by
  refine ⟨_, rfl, ?_⟩
  unfold decode_and_verify_jwt
  rw [show (String.mk (b64Encode (charsBytes (encVal (.obj [("alg", .str ALGORITHM)]))) ++
      '.' :: (b64Encode (charsBytes (encVal (.obj map))) ++
        '.' :: signChars (b64Encode (charsBytes (encVal (.obj [("alg", .str ALGORITHM)]))) ++
          '.' :: b64Encode (charsBytes (encVal (.obj map)))) key))).data =
    b64Encode (charsBytes (encVal (.obj [("alg", .str ALGORITHM)]))) ++
      '.' :: (b64Encode (charsBytes (encVal (.obj map))) ++
        '.' :: signChars (b64Encode (charsBytes (encVal (.obj [("alg", .str ALGORITHM)]))) ++
          '.' :: b64Encode (charsBytes (encVal (.obj map)))) key) from rfl]
  rw [splitDot_append _ _ (b64Encode_no_dot _)]
  rw [splitDot_append _ _ (b64Encode_no_dot _)]
  rw [splitDot_nodot _ (fun c hc => by
    unfold signChars at hc
    exact b64Encode_no_dot _ c hc)]
  simp [decodePart_enc map hwf]

/-- `SdAlgorithm::serialize_and_insert`: serializes the value with serde_json,
base64url-encodes the UTF-8 bytes of the result, and stores it under the given
field name as a JSON string, silently replacing any previous field. -/
def serialize_and_insert (map : Jmap) (field : String) (element : Value) :
    Except String Jmap :=
  let serialized_element := encVal element
  let encoded_element := b64Encode (charsBytes serialized_element)
  .ok (minsert map field (.str (String.mk encoded_element))).2

/-- `SdAlgorithm::get_and_decode`: reads the named field (which must be a
string), base64url-decodes it, interprets the bytes as UTF-8 and deserializes
the result with serde_json. -/
def get_and_decode (map : Jmap) (field : String) : Except String Value :=
  match mget map field with
  | none => .error "Failed to retrieve field"
  | some (.str encoded_element) =>
    match b64Decode encoded_element.data with
    | none => .error "Failed to decode field"
    | some bytes =>
      match utf8Dec bytes with
      | none => .error "Failed to convert field from byte vector"
      | some chars =>
        match jsonParse chars with
        | none => .error "Failed to deserialize field"
        | some element => .ok element
  | some _ => .error "Encoded field is not a string"

/-- `get_and_decode` instantiated at `Map<String, Value>`: deserialization
additionally requires the value to be a JSON object. -/
def get_and_decode_map (map : Jmap) (field : String) : Except String Jmap :=
  match get_and_decode map field with
  | .error e => .error e
  | .ok (.obj m) => .ok m
  | .ok _ => .error "Failed to deserialize field"

/-- `get_and_decode` instantiated at `String`: deserialization additionally
requires the value to be a JSON string. -/
def get_and_decode_string (map : Jmap) (field : String) : Except String String :=
  match get_and_decode map field with
  | .error e => .error e
  | .ok (.str s) => .ok s
  | .ok _ => .error "Failed to deserialize field"

theorem get_and_decode_serialize_and_insert (map : Jmap) (field : String) (x : Value)
    (hx : wf x = true) :
    ∃ m2, serialize_and_insert map field x = .ok m2 ∧ get_and_decode m2 field = .ok x := by
  refine ⟨_, rfl, ?_⟩
  have h0 : mget (minsert map field
        (.str (String.mk (b64Encode (charsBytes (encVal x)))))).2 field =
      some (.str (String.mk (b64Encode (charsBytes (encVal x))))) := mget_minsert_self _ _ _
  have h1 : b64Decode (String.mk (b64Encode (charsBytes (encVal x)))).data =
      some (charsBytes (encVal x)) := by
    rw [show (String.mk (b64Encode (charsBytes (encVal x)))).data =
      b64Encode (charsBytes (encVal x)) from rfl]
    exact b64_round _ (fun b hb => charsBytes_lt _ b hb)
  have h2 := utf8Dec_charsBytes (encVal x)
  have h3 := jsonParse_encVal x hx
  simp only [serialize_and_insert, get_and_decode, h0, h1, h2, h3]

/-- C9: serialization round-trips are exact: a supported value inserted with
`serialize_and_insert` is recovered exactly by `get_and_decode` under the same
field name, and `decode_jwt` after `encode_jwt` returns the original claim
map. -/
theorem serialization_round_trip (x : Value) (f : String) (map C : Jmap)
    (hx : wf x = true) (hC : wf (.obj C) = true) :
    (∃ m2, serialize_and_insert map f x = .ok m2 ∧ get_and_decode m2 f = .ok x) ∧
    (∃ jwt, encode_jwt C = .ok jwt ∧ decode_jwt jwt = .ok C) :=
  ⟨get_and_decode_serialize_and_insert map f x hx, decode_encode_jwt C hC⟩

/-- Witness for C9 at a concrete value, field name and claim map. -/
theorem serialization_round_trip_witness :
    wf (.arr [.str "a", .num 5, .obj [("k", .null)]]) = true ∧
    wf (.obj [("iss", .str "me"), ("n", .num (-3))]) = true ∧
    ((∃ m2, serialize_and_insert [("x", .bool true)] "f"
          (.arr [.str "a", .num 5, .obj [("k", .null)]]) = .ok m2 ∧
        get_and_decode m2 "f" = .ok (.arr [.str "a", .num 5, .obj [("k", .null)]])) ∧
      (∃ jwt, encode_jwt [("iss", .str "me"), ("n", .num (-3))] = .ok jwt ∧
        decode_jwt jwt = .ok [("iss", .str "me"), ("n", .num (-3))])) :=
  ⟨by decide, by decide,
    serialization_round_trip (.arr [.str "a", .num 5, .obj [("k", .null)]]) "f"
      [("x", .bool true)] [("iss", .str "me"), ("n", .num (-3))] (by decide) (by decide)⟩

/-- Identifier for the accumulator value in the VC/VP. -/
def ACCUMULATOR : String := "accumulator"

/-- Identifier for the Witness-Value Container in the VC/VP. -/
def WVC : String := "wvc"

/-- `CsdJwtInstance::convert_claim_to_scalar`: maps a claim to a field element
by concatenating `key:value.to_string()` and hashing (SHA-256 reduced into the
scalar field).  The external one-way hash is modelled by the injective digest
`chars2Nat`, matching the spec's collision-freeness assumption;
`value.to_string()` is the serde_json rendering. -/
def convert_claim_to_scalar (key : String) (value : Value) : Nat :=
  chars2Nat (key.data ++ ':' :: encVal value)

/-- Model of `PositiveAccumulator::initialize`: the accumulator value is
modelled as the list of accumulated elements (the algebraic accumulator of the
external library determines and is determined by this set under its binding
property). -/
def accInitialize (params : Unit) : List Nat := []

/-- Model of `PositiveAccumulator::add_batch` under the issuer secret key:
returns the updated accumulator together with the updated state. -/
def add_batch (acc : List Nat) (elements : List Nat) (sk : Nat) (state : List Nat) :
    Except String (List Nat) × List Nat :=
  (.ok (acc ++ elements), state ++ elements)

/-- Model of `get_membership_witnesses_for_batch`: the witness of an element
is the accumulator with one occurrence of that element removed. -/
def get_membership_witnesses_for_batch (acc : List Nat) (elements : List Nat) (sk : Nat)
    (state : List Nat) : Except String (List (List Nat)) :=
  .ok (elements.map (fun e => acc.erase e))

/-- Executable multiset-equality check. -/
def permCheck : List Nat → List Nat → Bool
  | [], [] => true
  | [], _ :: _ => false
  | x :: xs, ys => ys.contains x && permCheck xs (ys.erase x)

/-- Model of `Accumulator::verify_membership` under the issuer public key and
setup parameters: the witness together with the element must reassemble the
accumulator. -/
def verify_membership (acc : List Nat) (element : Nat) (witness : List Nat)
    (pk : Nat) (params : Unit) : Bool :=
  permCheck (element :: witness) acc

/-- Byte form of an accumulator or witness value, modelling
`CanonicalSerialize::serialize_compressed`: length-prefixed sequence of
base-128 encoded elements. -/
def encodeElemList (l : List Nat) : List Nat :=
  lebEncode l.length ++ (l.map lebEncode).flatten

/-- The string produced by `CsdJwtInstance::serialize`: compressed bytes,
base64url-encoded. -/
def serializeStr (element : List Nat) : String :=
  String.mk (b64Encode (encodeElemList element))

/-- `CsdJwtInstance::serialize`: in-memory serialization never fails. -/
def serialize (element : List Nat) : Except String String :=
  .ok (serializeStr element)

/-- Reads a fixed count of base-128 numbers from a byte list. -/
def decodeElems : Nat → List Nat → Option (List Nat × List Nat)
  | 0, bytes => some ([], bytes)
  | count + 1, bytes =>
    match lebDecode bytes with
    | none => none
    | some (e, r) =>
      match decodeElems count r with
      | none => none
      | some (l, r2) => some (e :: l, r2)

/-- `CsdJwtInstance::deserialize`: base64url-decode, then read back the
compressed byte form (a reader-based deserializer ignores trailing bytes). -/
def deserialize (encoded_element : String) : Except String (List Nat) :=
  match b64Decode encoded_element.data with
  | none => .error "Error in decoding element"
  | some decoded =>
    match lebDecode decoded with
    | none => .error "Error in deserializing element"
    | some (count, rest) =>
      match decodeElems count rest with
      | none => .error "Error in deserializing element"
      | some (l, _) => .ok l

/-- Body of the per-claim verification thread spawned by
`verify_witness_value_container`: structural problems return errors, but the
boolean returned by `verify_membership` (line 152 of the source) is a
discarded statement value, so a failing membership check still yields `Ok`. -/
def wvcEntryCheck (accumulator : List Nat) (issuer_public_key : Nat) (params : Unit)
    (claim_key : String) (array_value : Value) : Except String Unit :=
  match array_value with
  | .arr array =>
    match array[0]? with
    | none => .error "Salt not found in salt value container."
    | some witness_value =>
      match array[1]? with
      | none => .error "Value not found in salt value container."
      | some claim_value =>
        match witness_value with
        | .str witness_string =>
          match deserialize witness_string with
          | .error e => .error e
          | .ok witness =>
            let element := convert_claim_to_scalar claim_key claim_value
            let _ := verify_membership accumulator element witness issuer_public_key params
            .ok ()
        | _ => .error "Either witnesses or values are not strings."
  | _ => .error "Error, array field in Witness value container is not an array"

/-- `CsdJwtInstance::verify_witness_value_container`: spawns one thread per
WVC entry and collects the join handles into a vector, but never joins them —
every entry's result is discarded and the function returns `Ok`
unconditionally. -/
def verify_witness_value_container (wvc : Jmap) (accumulator : List Nat)
    (issuer_public_key : Nat) (params : Unit) : Except String Unit :=
  let _threads := wvc.map
    (fun kv => wvcEntryCheck accumulator issuer_public_key params kv.1 kv.2)
  .ok ()

/-- The WVC built by `issue_vc`: each claim key maps to the pair (serialized
membership witness, original claim value), inserted in claim order. -/
def buildWvc (claims : Jmap) (witnesses : List (List Nat)) : Jmap :=
  (claims.zip witnesses).foldl
    (fun m kvw => (minsert m kvw.1.1 (.arr [.str (serializeStr kvw.2), kvw.1.2])).2) []

/-- `CsdJwtInstance::issue_vc`: extract the claim-set, map the claims to
scalars, batch-add them to a fresh accumulator, derive one membership witness
per claim against the final accumulator and state, embed the serialized
accumulator and the witness-value container, strip the claim-set field, and
encode the result as an unsigned JWT. -/
def issue_vc (raw_vc : Jmap) (issuer_private_key : Nat) (params : Unit) :
    Except String (Jmap × String) :=
  let vc := raw_vc
  match extract_claims vc with
  | .error e => .error e
  | .ok claims =>
    let accumulator := accInitialize params
    let state : List Nat := []
    let elements := claims.map (fun kv => convert_claim_to_scalar kv.1 kv.2)
    match add_batch accumulator elements issuer_private_key state with
    | (.error err, _) => .error err
    | (.ok accumulator, state) =>
      match get_membership_witnesses_for_batch accumulator elements issuer_private_key state with
      | .error err => .error err
      | .ok witnesses =>
        let witness_value_container := buildWvc claims witnesses
        match serialize accumulator with
        | .error e => .error e
        | .ok serialized_accumulator =>
          match serialize_and_insert vc ACCUMULATOR (.str serialized_accumulator) with
          | .error e => .error e
          | .ok vc1 =>
            match serialize_and_insert vc1 WVC (.obj witness_value_container) with
            | .error e => .error e
            | .ok vc2 =>
              let r := remove_claims vc2
              match r.2 with
              | .error e => .error e
              | .ok _ =>
                match encode_jwt r.1 with
                | .error e => .error e
                | .ok jwt => .ok (r.1, jwt)

/-- `CsdJwtInstance::verify_vc`: retrieve the WVC and the serialized
accumulator, deserialize the accumulator, and verify the WVC. -/
def verify_vc (vc : Jmap) (issuer_public_key : Nat) (params : Unit) : Except String Unit :=
  match get_and_decode_map vc WVC with
  | .error e => .error e
  | .ok witness_value_container =>
    match get_and_decode_string vc ACCUMULATOR with
    | .error e => .error e
    | .ok serialized_accumulator =>
      match deserialize serialized_accumulator with
      | .error e => .error e
      | .ok accumulator =>
        verify_witness_value_container witness_value_container accumulator issuer_public_key
          params

/-- `CsdJwtInstance::issue_vp`: keep only the WVC entries whose key is in the
disclosure list, re-embed the filtered WVC, and sign the result with the
holder's private key. -/
def issue_vp (vc : Jmap) (disclosures : List String) (holder_private_key : Nat) :
    Except String (Jmap × String) :=
  let vp := vc
  match get_and_decode_map vp WVC with
  | .error e => .error e
  | .ok witness_value_container =>
    let new_wvc := witness_value_container.foldl
      (fun m kv => if disclosures.contains kv.1 then (minsert m kv.1 kv.2).2 else m) []
    match serialize_and_insert vp WVC (.obj new_wvc) with
    | .error e => .error e
    | .ok vp2 =>
      match encode_and_sign_jwt vp2 holder_private_key with
      | .error e => .error e
      | .ok jwt => .ok (vp2, jwt)

/-- `CsdJwtInstance::verify_vp`: decode the JWT verifying the holder's
signature, then proceed as `verify_vc` does. -/
def verify_vp (jwt : String) (issuer_public_key : Nat) (holder_public_key : Nat)
    (params : Unit) : Except String Unit :=
  match decode_and_verify_jwt jwt holder_public_key with
  | .error e => .error e
  | .ok vp =>
    match get_and_decode_map vp WVC with
    | .error e => .error e
    | .ok witness_value_container =>
      match get_and_decode_string vp ACCUMULATOR with
      | .error e => .error e
      | .ok serialized_accumulator =>
        match deserialize serialized_accumulator with
        | .error e => .error e
        | .ok accumulator =>
          verify_witness_value_container witness_value_container accumulator issuer_public_key
            params

theorem lebEncodeF_congr : ∀ fuel1 fuel2 n : Nat, n ≤ fuel1 → n ≤ fuel2 →
    lebEncodeF fuel1 n = lebEncodeF fuel2 n := by
  intro fuel1
  induction fuel1 with
  | zero =>
    intro fuel2 n h1 h2
    have : n = 0 := by omega
    subst this
    cases fuel2 with
    | zero => rfl
    | succ f2 => rfl
  | succ f ih =>
    intro fuel2 n h1 h2
    cases fuel2 with
    | zero =>
      have : n = 0 := by omega
      subst this
      rfl
    | succ f2 =>
      show (if n < 128 then [n] else (128 + n % 128) :: lebEncodeF f (n / 128)) =
        (if n < 128 then [n] else (128 + n % 128) :: lebEncodeF f2 (n / 128))
      by_cases h : n < 128
      · rw [if_pos h, if_pos h]
      · rw [if_neg h, if_neg h]
        have hlt : n / 128 < n := Nat.div_lt_self (by omega) (by omega)
        rw [ih f2 (n / 128) (by omega) (by omega)]

theorem lebEncode_eq (n : Nat) :
    lebEncode n = if n < 128 then [n] else (128 + n % 128) :: lebEncode (n / 128) := by
  unfold lebEncode
  cases n with
  | zero => rfl
  | succ m =>
    show (if m + 1 < 128 then [m + 1] else
      (128 + (m + 1) % 128) :: lebEncodeF m ((m + 1) / 128)) = _
    by_cases h : m + 1 < 128
    · rw [if_pos h, if_pos h]
    · rw [if_neg h, if_neg h]
      have hlt : (m + 1) / 128 < m + 1 := Nat.div_lt_self (by omega) (by omega)
      rw [lebEncodeF_congr m ((m + 1) / 128) ((m + 1) / 128) (by omega) (by omega)]

theorem lebEncode_lt (n : Nat) : ∀ b ∈ lebEncode n, b < 256 := by
  induction n using Nat.strong_induction_on with
  | _ n ih =>
    intro b hb
    rw [lebEncode_eq] at hb
    by_cases h : n < 128
    · rw [if_pos h] at hb
      simp at hb
      omega
    · rw [if_neg h] at hb
      simp at hb
      rcases hb with hb | hb
      · omega
      · exact ih (n / 128) (Nat.div_lt_self (by omega) (by omega)) b hb

theorem lebDecode_step (b : Nat) (rest : List Nat) :
    lebDecode (b :: rest) =
      (if b < 128 then some (b, rest)
      else
        match lebDecode rest with
        | some (m, r) => some (m * 128 + (b - 128), r)
        | none => none) := rfl

theorem lebDecode_enc (n : Nat) : ∀ rest, lebDecode (lebEncode n ++ rest) = some (n, rest) := by
  induction n using Nat.strong_induction_on with
  | _ n ih =>
    intro rest
    rw [lebEncode_eq]
    by_cases h : n < 128
    · rw [if_pos h]
      simp only [List.cons_append, List.nil_append]
      rw [lebDecode_step, if_pos h]
    · rw [if_neg h]
      simp only [List.cons_append]
      rw [lebDecode_step, if_neg (by omega)]
      have harith : n / 128 * 128 + (128 + n % 128 - 128) = n := by omega
      simp only [ih (n / 128) (Nat.div_lt_self (by omega) (by omega)) rest, harith]

theorem decodeElems_step (count : Nat) (bytes : List Nat) :
    decodeElems (count + 1) bytes =
      (match lebDecode bytes with
      | none => none
      | some (e, r) =>
        match decodeElems count r with
        | none => none
        | some (l, r2) => some (e :: l, r2)) := rfl

theorem decodeElems_enc : ∀ l : List Nat, ∀ rest,
    decodeElems l.length ((l.map lebEncode).flatten ++ rest) = some (l, rest)
  | [], rest => rfl
  | e :: t, rest => by
    rw [show (e :: t).length = t.length + 1 from rfl]
    rw [decodeElems_step]
    simp only [List.map_cons, List.flatten_cons, List.append_assoc]
    simp only [lebDecode_enc e ((t.map lebEncode).flatten ++ rest), decodeElems_enc t rest]

theorem encodeElemList_lt (l : List Nat) : ∀ b ∈ encodeElemList l, b < 256 := by
  intro b hb
  unfold encodeElemList at hb
  rw [List.mem_append] at hb
  rcases hb with hb | hb
  · exact lebEncode_lt _ b hb
  · rw [List.mem_flatten] at hb
    obtain ⟨bl, hbl, hmem⟩ := hb
    rw [List.mem_map] at hbl
    obtain ⟨x, _, rfl⟩ := hbl
    exact lebEncode_lt x b hmem

theorem deserialize_serializeStr (l : List Nat) : deserialize (serializeStr l) = .ok l := by
  have h1 : b64Decode (serializeStr l).data = some (encodeElemList l) := by
    rw [show (serializeStr l).data = b64Encode (encodeElemList l) from rfl]
    exact b64_round _ (fun b hb => encodeElemList_lt _ b hb)
  have h2 : lebDecode (encodeElemList l) = some (l.length, (l.map lebEncode).flatten) := by
    unfold encodeElemList
    exact lebDecode_enc _ _
  have h3 : decodeElems l.length ((l.map lebEncode).flatten ++ []) = some (l, []) :=
    decodeElems_enc l []
  rw [List.append_nil] at h3
  simp only [deserialize, h1, h2, h3]

theorem wf_obj_iff (m : Jmap) :
    wf (.obj m) = true ↔ (nodupKeys m = true ∧ ∀ kv ∈ m, wf kv.2 = true) := by
  rw [show wf (.obj m) = (nodupKeys m && wfObj m) from rfl, Bool.and_eq_true]
  constructor
  · rintro ⟨h1, h2⟩
    refine ⟨h1, ?_⟩
    clear h1
    induction m with
    | nil => simp
    | cons kv t ih =>
      obtain ⟨k, v⟩ := kv
      rw [show wfObj ((k, v) :: t) = (wf v && wfObj t) from rfl, Bool.and_eq_true] at h2
      intro kv hkv
      rcases List.mem_cons.mp hkv with rfl | hm
      · exact h2.1
      · exact ih h2.2 kv hm
  · rintro ⟨h1, h2⟩
    refine ⟨h1, ?_⟩
    clear h1
    induction m with
    | nil => rfl
    | cons kv t ih =>
      obtain ⟨k, v⟩ := kv
      rw [show wfObj ((k, v) :: t) = (wf v && wfObj t) from rfl, Bool.and_eq_true]
      exact ⟨h2 (k, v) (by simp), ih (fun kv hkv => h2 kv (by simp [hkv]))⟩

theorem mget_mem (m : Jmap) (k : String) (v : Value) (h : mget m k = some v) : (k, v) ∈ m := by
  induction m with
  | nil => simp [mget] at h
  | cons kv t ih =>
    obtain ⟨ka, w⟩ := kv
    rw [mget] at h
    by_cases hk : ka = k
    · rw [if_pos hk] at h
      cases h
      subst hk
      simp
    · rw [if_neg hk] at h
      simp [ih h]

theorem mem_keys_minsert (m : Jmap) (k : String) (v : Value) (x : String) :
    x ∈ (minsert m k v).2.map Prod.fst ↔ x ∈ m.map Prod.fst ∨ x = k := by
  induction m with
  | nil => simp [minsert]
  | cons kv t ih =>
    obtain ⟨ka, w⟩ := kv
    rw [minsert]
    by_cases hk : ka = k
    · rw [if_pos hk]
      subst hk
      simp
      tauto
    · rw [if_neg hk]
      simp [ih]
      tauto

theorem nodupKeys_minsert (m : Jmap) (k : String) (v : Value) (h : nodupKeys m = true) :
    nodupKeys (minsert m k v).2 = true := by
  induction m with
  | nil => simp [minsert, nodupKeys]
  | cons kv t ih =>
    obtain ⟨ka, w⟩ := kv
    simp only [nodupKeys, Bool.and_eq_true, decide_eq_true_eq] at h
    rw [minsert]
    by_cases hk : ka = k
    · rw [if_pos hk]
      subst hk
      simp only [nodupKeys, Bool.and_eq_true, decide_eq_true_eq]
      exact ⟨h.1, h.2⟩
    · rw [if_neg hk]
      simp only [nodupKeys, Bool.and_eq_true, decide_eq_true_eq]
      refine ⟨?_, ih h.2⟩
      rw [mem_keys_minsert]
      push_neg
      exact ⟨h.1, hk⟩

theorem mem_keys_mremove (m : Jmap) (k : String) (x : String)
    (h : x ∈ (mremove m k).2.map Prod.fst) : x ∈ m.map Prod.fst := by
  induction m with
  | nil => simp [mremove] at h
  | cons kv t ih =>
    obtain ⟨ka, w⟩ := kv
    rw [mremove] at h
    by_cases hk : ka = k
    · rw [if_pos hk] at h
      simp [h]
    · rw [if_neg hk] at h
      simp only [List.map_cons, List.mem_cons] at h ⊢
      rcases h with h | h
      · exact Or.inl h
      · exact Or.inr (ih h)

theorem nodupKeys_mremove (m : Jmap) (k : String) (h : nodupKeys m = true) :
    nodupKeys (mremove m k).2 = true := by
  induction m with
  | nil => simp [mremove, nodupKeys]
  | cons kv t ih =>
    obtain ⟨ka, w⟩ := kv
    simp only [nodupKeys, Bool.and_eq_true, decide_eq_true_eq] at h
    rw [mremove]
    by_cases hk : ka = k
    · rw [if_pos hk]
      exact h.2
    · rw [if_neg hk]
      simp only [nodupKeys, Bool.and_eq_true, decide_eq_true_eq]
      exact ⟨fun hmem => h.1 (mem_keys_mremove t k ka hmem), ih h.2⟩

theorem mem_minsert (m : Jmap) (k : String) (v : Value) (kv : String × Value)
    (h : kv ∈ (minsert m k v).2) : kv ∈ m ∨ kv = (k, v) := by
  induction m with
  | nil =>
    simp [minsert] at h
    simp [h]
  | cons kv0 t ih =>
    obtain ⟨ka, w⟩ := kv0
    rw [minsert] at h
    by_cases hk : ka = k
    · rw [if_pos hk] at h
      rcases List.mem_cons.mp h with rfl | hm
      · simp
      · exact Or.inl (by simp [hm])
    · rw [if_neg hk] at h
      rcases List.mem_cons.mp h with rfl | hm
      · simp
      · rcases ih hm with hm2 | hm2
        · exact Or.inl (by simp [hm2])
        · exact Or.inr hm2

theorem mem_mremove (m : Jmap) (k : String) (kv : String × Value)
    (h : kv ∈ (mremove m k).2) : kv ∈ m := by
  induction m with
  | nil => simp [mremove] at h
  | cons kv0 t ih =>
    obtain ⟨ka, w⟩ := kv0
    rw [mremove] at h
    by_cases hk : ka = k
    · rw [if_pos hk] at h
      simp [h]
    · rw [if_neg hk] at h
      rcases List.mem_cons.mp h with rfl | hm
      · simp
      · simp [ih hm]

theorem mget_append_none (l1 l2 : Jmap) (k : String) :
    mget (l1 ++ l2) k = none ↔ mget l1 k = none ∧ mget l2 k = none := by
  induction l1 with
  | nil => simp [mget]
  | cons kv t ih =>
    obtain ⟨ka, w⟩ := kv
    rw [List.cons_append, mget, mget]
    by_cases hk : ka = k
    · simp [hk]
    · simp [hk, ih]

/-- The scalar elements of a claim-set, in iteration order. -/
def elementsOf (claims : Jmap) : List Nat :=
  claims.map (fun kv => convert_claim_to_scalar kv.1 kv.2)

theorem buildWvc_go (ps : List ((String × Value) × List Nat)) : ∀ acc : Jmap,
    (ps.map (fun p => p.1.1)).Nodup →
    (∀ p ∈ ps, mget acc p.1.1 = none) →
    ps.foldl (fun m kvw => (minsert m kvw.1.1 (.arr [.str (serializeStr kvw.2), kvw.1.2])).2) acc
      = acc ++ ps.map (fun kvw => (kvw.1.1, .arr [.str (serializeStr kvw.2), kvw.1.2])) := by
  induction ps with
  | nil => simp
  | cons p t ih =>
    intro acc hnd hfresh
    rw [List.foldl_cons]
    rw [minsert_fresh _ _ _ (hfresh p (by simp))]
    rw [List.map_cons, List.nodup_cons] at hnd
    rw [ih _ hnd.2]
    · simp
    · intro q hq
      rw [mget_append_none]
      refine ⟨hfresh q (by simp [hq]), ?_⟩
      rw [mget_eq_none_iff]
      simp only [List.map_cons, List.map_nil]
      intro hmem
      simp at hmem
      exact hnd.1 (by rw [← hmem]; exact List.mem_map_of_mem _ hq)

theorem zip_self_map (claims : Jmap) (f : String × Value → List Nat) :
    claims.zip (claims.map f) = claims.map (fun kv => (kv, f kv)) := by
  induction claims with
  | nil => rfl
  | cons kv t ih => simp [List.zip_cons_cons, ih]

theorem buildWvc_eq (claims : Jmap) (hnd : nodupKeys claims = true) :
    buildWvc claims ((elementsOf claims).map (fun e => (elementsOf claims).erase e)) =
      claims.map (fun kv =>
        (kv.1, .arr [.str (serializeStr
          ((elementsOf claims).erase (convert_claim_to_scalar kv.1 kv.2))), kv.2])) := by
  unfold buildWvc
  rw [show (elementsOf claims).map (fun e => (elementsOf claims).erase e) =
    claims.map (fun kv => (elementsOf claims).erase (convert_claim_to_scalar kv.1 kv.2)) by
      unfold elementsOf
      rw [List.map_map]
      rfl]
  rw [zip_self_map]
  rw [buildWvc_go]
  · simp [List.map_map]
  · rw [List.map_map]
    rw [show ((fun p : (String × Value) × List Nat => p.1.1) ∘
        fun kv : String × Value => (kv, (elementsOf claims).erase
          (convert_claim_to_scalar kv.1 kv.2))) = Prod.fst from rfl]
    exact (nodupKeys_iff claims).mp hnd
  · intro p _
    simp [mget]

/-- The encoded accumulator field value embedded by `issue_vc`. -/
def accFieldVal (claims : Jmap) : Value :=
  .str (String.mk (b64Encode (charsBytes (encVal (.str (serializeStr (elementsOf claims)))))))

/-- The WVC produced by `issue_vc`, in its derived map form. -/
def wvcOf (claims : Jmap) : Jmap :=
  claims.map (fun kv =>
    (kv.1, .arr [.str (serializeStr
      ((elementsOf claims).erase (convert_claim_to_scalar kv.1 kv.2))), kv.2]))

/-- The encoded WVC field value embedded by `issue_vc`. -/
def wvcFieldVal (claims : Jmap) : Value :=
  .str (String.mk (b64Encode (charsBytes (encVal (.obj (buildWvc claims
    ((elementsOf claims).map (fun e => (elementsOf claims).erase e))))))))

/-- The map state after `issue_vc` has embedded both fields, before the
claim-set is stripped. -/
def vc2Of (raw claims : Jmap) : Jmap :=
  (minsert (minsert raw ACCUMULATOR (accFieldVal claims)).2 WVC (wvcFieldVal claims)).2

/-- The credential map returned by `issue_vc`. -/
def issuedVc (raw claims : Jmap) : Jmap := (mremove (vc2Of raw claims) CLAIMS).2

theorem remove_claims_present (m : Jmap) (x : Value) (h : mget m CLAIMS = some x) :
    remove_claims m = ((mremove m CLAIMS).2, .ok ()) := by
  have h1 : (mremove m CLAIMS).1 = some x := by rw [mremove_fst]; exact h
  simp only [remove_claims, h1]

theorem issue_vc_eq0 (raw claims : Jmap) (sk : Nat)
    (hc : mget raw CLAIMS = some (.obj claims)) :
    issue_vc raw sk () =
      (match encode_jwt (issuedVc raw claims) with
      | .error e => .error e
      | .ok jwt => .ok (issuedVc raw claims, jwt)) := by
  have hex : extract_claims raw = .ok claims := by
    unfold extract_claims
    rw [hc]
  have hmr : mget (vc2Of raw claims) CLAIMS = some (.obj claims) := by
    unfold vc2Of
    rw [mget_minsert_ne _ _ _ _ (by decide : WVC ≠ CLAIMS),
      mget_minsert_ne _ _ _ _ (by decide : ACCUMULATOR ≠ CLAIMS), hc]
  simp only [issue_vc]
  rw [hex]
  show ((let r := remove_claims (vc2Of raw claims)
        match r.2 with
        | Except.error e => Except.error e
        | Except.ok _ =>
          match encode_jwt r.1 with
          | Except.error e => Except.error e
          | Except.ok jwt => Except.ok (r.1, jwt)) : Except String (Jmap × String)) = _
  rw [remove_claims_present _ _ hmr]
  rfl

theorem issue_vc_eq (raw claims : Jmap) (sk : Nat)
    (hc : mget raw CLAIMS = some (.obj claims)) :
    ∃ jwt, issue_vc raw sk () = .ok (issuedVc raw claims, jwt) := by
  rw [issue_vc_eq0 raw claims sk hc]
  exact ⟨_, rfl⟩

theorem mget_issuedVc_WVC (raw claims : Jmap) :
    mget (issuedVc raw claims) WVC = some (wvcFieldVal claims) := by
  unfold issuedVc vc2Of
  rw [mget_mremove_ne _ _ _ (by decide : CLAIMS ≠ WVC)]
  exact mget_minsert_self _ _ _

theorem mget_issuedVc_ACC (raw claims : Jmap) :
    mget (issuedVc raw claims) ACCUMULATOR = some (accFieldVal claims) := by
  unfold issuedVc vc2Of
  rw [mget_mremove_ne _ _ _ (by decide : CLAIMS ≠ ACCUMULATOR)]
  rw [mget_minsert_ne _ _ _ _ (by decide : WVC ≠ ACCUMULATOR)]
  exact mget_minsert_self _ _ _

theorem get_and_decode_of_mget (m : Jmap) (f : String) (X : Value) (hwfX : wf X = true)
    (h : mget m f = some (.str (String.mk (b64Encode (charsBytes (encVal X)))))) :
    get_and_decode m f = .ok X := by
  have h1 : b64Decode (String.mk (b64Encode (charsBytes (encVal X)))).data =
      some (charsBytes (encVal X)) := by
    rw [show (String.mk (b64Encode (charsBytes (encVal X)))).data =
      b64Encode (charsBytes (encVal X)) from rfl]
    exact b64_round _ (fun b hb => charsBytes_lt _ b hb)
  have h2 := utf8Dec_charsBytes (encVal X)
  have h3 := jsonParse_encVal X hwfX
  simp only [get_and_decode, h, h1, h2, h3]

theorem wf_wvcOf (claims : Jmap) (hwf : wf (.obj claims) = true) :
    wf (.obj (wvcOf claims)) = true := by
  rw [wf_obj_iff] at hwf ⊢
  obtain ⟨hnd, hvals⟩ := hwf
  constructor
  · rw [nodupKeys_iff]
    unfold wvcOf
    rw [List.map_map]
    rw [show (Prod.fst ∘ fun kv : String × Value =>
      (kv.1, Value.arr [.str (serializeStr
        ((elementsOf claims).erase (convert_claim_to_scalar kv.1 kv.2))), kv.2])) =
      Prod.fst from rfl]
    exact (nodupKeys_iff claims).mp hnd
  · intro kv hkv
    unfold wvcOf at hkv
    rw [List.mem_map] at hkv
    obtain ⟨kv0, hkv0, rfl⟩ := hkv
    have hv := hvals kv0 hkv0
    rw [show wf (Value.arr [.str (serializeStr
        ((elementsOf claims).erase (convert_claim_to_scalar kv0.1 kv0.2))), kv0.2]) =
      (true && (wf kv0.2 && true)) from rfl]
    simp [hv]

theorem buildWvc_eq_wvcOf (claims : Jmap) (hnd : nodupKeys claims = true) :
    buildWvc claims ((elementsOf claims).map (fun e => (elementsOf claims).erase e)) =
      wvcOf claims := buildWvc_eq claims hnd

theorem issuedVc_get_wvc (raw claims : Jmap) (hnd : nodupKeys claims = true)
    (hwfc : wf (.obj claims) = true) :
    get_and_decode_map (issuedVc raw claims) WVC = .ok (wvcOf claims) := by
  have h1 : get_and_decode (issuedVc raw claims) WVC = .ok (.obj (wvcOf claims)) := by
    apply get_and_decode_of_mget _ _ _ (wf_wvcOf claims hwfc)
    rw [mget_issuedVc_WVC]
    unfold wvcFieldVal
    rw [buildWvc_eq_wvcOf claims hnd]
  simp only [get_and_decode_map, h1]

theorem issuedVc_get_acc (raw claims : Jmap) :
    get_and_decode_string (issuedVc raw claims) ACCUMULATOR =
      .ok (serializeStr (elementsOf claims)) := by
  have h1 : get_and_decode (issuedVc raw claims) ACCUMULATOR =
      .ok (.str (serializeStr (elementsOf claims))) := by
    apply get_and_decode_of_mget _ _ _ (by rfl)
    rw [mget_issuedVc_ACC]
    rfl
  simp only [get_and_decode_string, h1]

/-- C2: completeness — for every raw credential whose reserved claim-set field
is present and an object, verification of the credential produced by
`issue_vc` under the issuer key material and setup parameters used at issuance
succeeds. -/
theorem issue_vc_then_verify_vc (raw claims : Jmap) (key : Nat)
    (hc : mget raw CLAIMS = some (.obj claims)) (hwf : wf (.obj raw) = true) :
    ∃ vc jwt, issue_vc raw key () = .ok (vc, jwt) ∧ verify_vc vc key () = .ok () := by
  obtain ⟨jwt, hissue⟩ := issue_vc_eq raw claims key hc
  have hwfc : wf (.obj claims) = true := by
    rw [wf_obj_iff] at hwf
    exact hwf.2 (CLAIMS, .obj claims) (mget_mem _ _ _ hc)
  have hnd : nodupKeys claims = true := ((wf_obj_iff claims).mp hwfc).1
  refine ⟨issuedVc raw claims, jwt, hissue, ?_⟩
  have h1 := issuedVc_get_wvc raw claims hnd hwfc
  have h2 := issuedVc_get_acc raw claims
  have h3 := deserialize_serializeStr (elementsOf claims)
  simp only [verify_vc, h1, h2, h3]
  rfl

/-- Witness credential for C2 and C5: two string claims under the reserved
claim-set field. -/
def rawW : Jmap :=
  [("iss", .str "issuer"), (CLAIMS, .obj [("name", .str "Alice"), ("age", .str "42")])]

/-- Claim-set of `rawW`. -/
def claimsW : Jmap := [("name", .str "Alice"), ("age", .str "42")]

/-- Witness for C2 at a concrete raw credential and key. -/
theorem issue_vc_then_verify_vc_witness :
    mget rawW CLAIMS = some (.obj claimsW) ∧ wf (.obj rawW) = true ∧
    ∃ vc jwt, issue_vc rawW 7 () = .ok (vc, jwt) ∧ verify_vc vc 7 () = .ok () :=
  ⟨rfl, by decide, issue_vc_then_verify_vc rawW claimsW 7 rfl (by decide)⟩

theorem mget_map_pair (m : Jmap) (h : String → Value → Value) (k : String) (v : Value)
    (hm : mget m k = some v) :
    mget (m.map (fun kv => (kv.1, h kv.1 kv.2))) k = some (h k v) := by
  induction m with
  | nil => simp [mget] at hm
  | cons kv t ih =>
    obtain ⟨ka, w⟩ := kv
    rw [mget] at hm
    rw [List.map_cons, mget]
    by_cases hk : ka = k
    · rw [if_pos hk] at hm ⊢
      cases hm
      subst hk
      rfl
    · rw [if_neg hk] at hm ⊢
      exact ih hm

theorem mget_wvcOf (claims : Jmap) (k : String) (v : Value) (h : mget claims k = some v) :
    mget (wvcOf claims) k = some (.arr [.str (serializeStr
      ((elementsOf claims).erase (convert_claim_to_scalar k v))), v]) :=
  mget_map_pair claims
    (fun k v => .arr [.str (serializeStr
      ((elementsOf claims).erase (convert_claim_to_scalar k v))), v]) k v h

theorem wvcOf_keys (claims : Jmap) : (wvcOf claims).map Prod.fst = claims.map Prod.fst := by
  unfold wvcOf
  rw [List.map_map]
  rfl

theorem nodupKeys_vc2Of (raw claims : Jmap) (h : nodupKeys raw = true) :
    nodupKeys (vc2Of raw claims) = true := by
  unfold vc2Of
  exact nodupKeys_minsert _ _ _ (nodupKeys_minsert _ _ _ h)

/-- C5: the credential map produced by `issue_vc` carries a witness-value
container whose keys, in iteration order, are exactly the original claim-set's
keys, each key mapping to the pair (serialized membership witness, original
claim value); and the reserved claim-set field itself has been removed. -/
theorem issue_vc_wvc_invariant (raw claims : Jmap) (key : Nat)
    (hc : mget raw CLAIMS = some (.obj claims)) (hwf : wf (.obj raw) = true) :
    ∃ vc jwt, issue_vc raw key () = .ok (vc, jwt) ∧
      get_and_decode_map vc WVC = .ok (wvcOf claims) ∧
      (wvcOf claims).map Prod.fst = claims.map Prod.fst ∧
      (∀ k v, mget claims k = some v →
        mget (wvcOf claims) k = some (.arr [.str (serializeStr
          ((elementsOf claims).erase (convert_claim_to_scalar k v))), v])) ∧
      mget vc CLAIMS = none := by
  obtain ⟨jwt, hissue⟩ := issue_vc_eq raw claims key hc
  have hwfc : wf (.obj claims) = true := by
    rw [wf_obj_iff] at hwf
    exact hwf.2 (CLAIMS, .obj claims) (mget_mem _ _ _ hc)
  have hndraw : nodupKeys raw = true := ((wf_obj_iff raw).mp hwf).1
  have hnd : nodupKeys claims = true := ((wf_obj_iff claims).mp hwfc).1
  refine ⟨issuedVc raw claims, jwt, hissue, issuedVc_get_wvc raw claims hnd hwfc,
    wvcOf_keys claims, fun k v hv => mget_wvcOf claims k v hv, ?_⟩
  unfold issuedVc
  exact mget_mremove_self _ _ (nodupKeys_vc2Of raw claims hndraw)

/-- Witness for C5 at a concrete raw credential. -/
theorem issue_vc_wvc_invariant_witness :
    mget rawW CLAIMS = some (.obj claimsW) ∧ wf (.obj rawW) = true ∧
    (∃ vc jwt, issue_vc rawW 7 () = .ok (vc, jwt) ∧
      get_and_decode_map vc WVC = .ok (wvcOf claimsW) ∧
      (wvcOf claimsW).map Prod.fst = claimsW.map Prod.fst ∧
      (∀ k v, mget claimsW k = some v →
        mget (wvcOf claimsW) k = some (.arr [.str (serializeStr
          ((elementsOf claimsW).erase (convert_claim_to_scalar k v))), v])) ∧
      mget vc CLAIMS = none) :=
  ⟨rfl, by decide, issue_vc_wvc_invariant rawW claimsW 7 rfl (by decide)⟩

theorem filterFold (D : List String) : ∀ (m : Jmap) (acc : Jmap),
    nodupKeys (acc ++ m) = true →
    m.foldl (fun m2 kv => if D.contains kv.1 then (minsert m2 kv.1 kv.2).2 else m2) acc
      = acc ++ m.filter (fun kv => D.contains kv.1)
  | [], acc => by simp
  | kv :: t, acc => by
    intro hnd
    rw [List.foldl_cons]
    have hfresh : mget acc kv.1 = none := by
      rw [nodupKeys_iff, List.map_append, List.nodup_append] at hnd
      rw [mget_eq_none_iff]
      intro hk
      exact hnd.2.2 hk (by simp)
    by_cases hd : D.contains kv.1
    · rw [if_pos hd]
      rw [minsert_fresh _ _ _ hfresh]
      rw [filterFold D t (acc ++ [kv]) (by rw [List.append_assoc]; exact hnd)]
      have hmem : kv.1 ∈ D := by simpa using hd
      simp [List.filter_cons, hmem]
    · rw [if_neg hd]
      rw [filterFold D t acc ?_]
      · have hmem : kv.1 ∉ D := by simpa using hd
        simp [List.filter_cons, hmem]
      · rw [nodupKeys_iff] at hnd ⊢
        apply List.Nodup.sublist _ hnd
        apply List.Sublist.map
        exact List.Sublist.append (List.Sublist.refl acc) (List.sublist_cons_self kv t)

theorem wf_obj_minsert (m : Jmap) (k : String) (v : Value) (hm : wf (.obj m) = true)
    (hv : wf v = true) : wf (.obj (minsert m k v).2) = true := by
  rw [wf_obj_iff] at hm ⊢
  refine ⟨nodupKeys_minsert _ _ _ hm.1, fun kv hkv => ?_⟩
  rcases mem_minsert _ _ _ _ hkv with h | h
  · exact hm.2 kv h
  · rw [h]
    exact hv

theorem wf_obj_mremove (m : Jmap) (k : String) (hm : wf (.obj m) = true) :
    wf (.obj (mremove m k).2) = true := by
  rw [wf_obj_iff] at hm ⊢
  exact ⟨nodupKeys_mremove _ _ hm.1, fun kv hkv => hm.2 kv (mem_mremove _ _ _ hkv)⟩

theorem wf_obj_filter (m : Jmap) (p : String × Value → Bool) (hm : wf (.obj m) = true) :
    wf (.obj (m.filter p)) = true := by
  rw [wf_obj_iff] at hm ⊢
  refine ⟨?_, fun kv hkv => hm.2 kv (List.mem_of_mem_filter hkv)⟩
  rw [nodupKeys_iff] at hm ⊢
  apply List.Nodup.sublist _ hm.1
  exact List.Sublist.map _ (List.filter_sublist m)

theorem wf_issuedVc (raw claims : Jmap) (hwf : wf (.obj raw) = true) :
    wf (.obj (issuedVc raw claims)) = true := by
  unfold issuedVc vc2Of
  exact wf_obj_mremove _ _ (wf_obj_minsert _ _ _ (wf_obj_minsert _ _ _ hwf rfl) rfl)

/-- The filtered WVC built by `issue_vp`: exactly the entries whose key is in
the disclosure list, in WVC order. -/
def dwvcOf (wvc : Jmap) (D : List String) : Jmap :=
  wvc.filter (fun kv => D.contains kv.1)

/-- The presentation map produced by `issue_vp`. -/
def vpOf (vc wvc : Jmap) (D : List String) : Jmap :=
  (minsert vc WVC (.str (String.mk (b64Encode (charsBytes
    (encVal (.obj (dwvcOf wvc D)))))))).2

theorem issue_vp_eq0 (vc wvc : Jmap) (D : List String) (hk : Nat)
    (hg : get_and_decode_map vc WVC = .ok wvc) (hnd : nodupKeys wvc = true) :
    issue_vp vc D hk =
      (match encode_and_sign_jwt (vpOf vc wvc D) hk with
      | .error e => .error e
      | .ok jwt => .ok (vpOf vc wvc D, jwt)) := by
  simp only [issue_vp]
  rw [hg]
  show ((match serialize_and_insert vc WVC (Value.obj (wvc.foldl
        (fun m kv => if D.contains kv.1 then (minsert m kv.1 kv.2).2 else m) [])) with
      | Except.error e => Except.error e
      | Except.ok vp2 =>
        match encode_and_sign_jwt vp2 hk with
        | Except.error e => Except.error e
        | Except.ok jwt => Except.ok (vp2, jwt)) : Except String (Jmap × String)) = _
  rw [filterFold D wvc [] (by simpa using hnd)]
  rfl

theorem mget_vpOf_WVC (vc wvc : Jmap) (D : List String) :
    mget (vpOf vc wvc D) WVC = some (.str (String.mk (b64Encode (charsBytes
      (encVal (.obj (dwvcOf wvc D))))))) := mget_minsert_self _ _ _

theorem mget_vpOf_ACC (vc wvc : Jmap) (D : List String) :
    mget (vpOf vc wvc D) ACCUMULATOR = mget vc ACCUMULATOR :=
  mget_minsert_ne _ _ _ _ (by decide : WVC ≠ ACCUMULATOR)

theorem vpOf_get_wvc (vc wvc : Jmap) (D : List String) (hwfw : wf (.obj wvc) = true) :
    get_and_decode_map (vpOf vc wvc D) WVC = .ok (dwvcOf wvc D) := by
  have h1 : get_and_decode (vpOf vc wvc D) WVC = .ok (.obj (dwvcOf wvc D)) := by
    apply get_and_decode_of_mget _ _ _ (wf_obj_filter wvc _ hwfw)
    exact mget_vpOf_WVC vc wvc D
  simp only [get_and_decode_map, h1]

theorem vpOf_get_acc (raw claims wvc : Jmap) (D : List String) :
    get_and_decode_string (vpOf (issuedVc raw claims) wvc D) ACCUMULATOR =
      .ok (serializeStr (elementsOf claims)) := by
  have h1 : get_and_decode (vpOf (issuedVc raw claims) wvc D) ACCUMULATOR =
      .ok (.str (serializeStr (elementsOf claims))) := by
    apply get_and_decode_of_mget _ _ _ (by rfl)
    rw [mget_vpOf_ACC, mget_issuedVc_ACC]
    rfl
  simp only [get_and_decode_string, h1]

theorem wf_vpOf (vc wvc : Jmap) (D : List String) (hwfvc : wf (.obj vc) = true) :
    wf (.obj (vpOf vc wvc D)) = true :=
  wf_obj_minsert _ _ _ hwfvc rfl

theorem nodupKeys_wvcOf (claims : Jmap) (hnd : nodupKeys claims = true) :
    nodupKeys (wvcOf claims) = true := by
  rw [nodupKeys_iff, wvcOf_keys]
  exact (nodupKeys_iff claims).mp hnd

theorem dwvcOf_keys_mem (wvc : Jmap) (D : List String) (k : String) :
    k ∈ (dwvcOf wvc D).map Prod.fst ↔ k ∈ wvc.map Prod.fst ∧ k ∈ D := by
  unfold dwvcOf
  constructor
  · intro h
    rw [List.mem_map] at h
    obtain ⟨kv, hkv, rfl⟩ := h
    rw [List.mem_filter] at hkv
    exact ⟨List.mem_map_of_mem _ hkv.1, by simpa using hkv.2⟩
  · rintro ⟨h1, h2⟩
    rw [List.mem_map] at h1 ⊢
    obtain ⟨kv, hkv, rfl⟩ := h1
    exact ⟨kv, List.mem_filter.mpr ⟨hkv, by simpa using h2⟩, rfl⟩

/-- C4: disclosure confinement — for a credential issued over a claim-set and
a disclosure list contained in its keys, the presentation produced by
`issue_vp` carries a witness-value container whose key set equals the
disclosure list exactly, and `verify_vp` on the signed envelope succeeds. -/
theorem issue_vp_disclosure_confinement (raw claims : Jmap) (issuerKey holderKey : Nat)
    (D : List String)
    (hc : mget raw CLAIMS = some (.obj claims)) (hwf : wf (.obj raw) = true)
    (hD : ∀ d ∈ D, d ∈ claims.map Prod.fst) :
    ∃ vc vcjwt vp vpjwt newWvc,
      issue_vc raw issuerKey () = .ok (vc, vcjwt) ∧
      issue_vp vc D holderKey = .ok (vp, vpjwt) ∧
      get_and_decode_map vp WVC = .ok newWvc ∧
      (∀ k, k ∈ newWvc.map Prod.fst ↔ k ∈ D) ∧
      verify_vp vpjwt issuerKey holderKey () = .ok () := by
  obtain ⟨vcjwt, hissue⟩ := issue_vc_eq raw claims issuerKey hc
  have hwfc : wf (.obj claims) = true := by
    rw [wf_obj_iff] at hwf
    exact hwf.2 (CLAIMS, .obj claims) (mget_mem _ _ _ hc)
  have hnd : nodupKeys claims = true := ((wf_obj_iff claims).mp hwfc).1
  have hndw : nodupKeys (wvcOf claims) = true := nodupKeys_wvcOf claims hnd
  have hg : get_and_decode_map (issuedVc raw claims) WVC = .ok (wvcOf claims) :=
    issuedVc_get_wvc raw claims hnd hwfc
  have hwfvc : wf (.obj (issuedVc raw claims)) = true := wf_issuedVc raw claims hwf
  have hwfw : wf (.obj (wvcOf claims)) = true := wf_wvcOf claims hwfc
  have hwfvp : wf (.obj (vpOf (issuedVc raw claims) (wvcOf claims) D)) = true :=
    wf_vpOf _ _ _ hwfvc
  obtain ⟨vpjwt, hsign, hdec⟩ := decode_encode_signed_jwt _ holderKey hwfvp
  have hvp : issue_vp (issuedVc raw claims) D holderKey =
      .ok (vpOf (issuedVc raw claims) (wvcOf claims) D, vpjwt) := by
    rw [issue_vp_eq0 _ _ D holderKey hg hndw, hsign]
  have hwvp : get_and_decode_map (vpOf (issuedVc raw claims) (wvcOf claims) D) WVC =
      .ok (dwvcOf (wvcOf claims) D) := vpOf_get_wvc _ _ _ hwfw
  have hacc := vpOf_get_acc raw claims (wvcOf claims) D
  have hde := deserialize_serializeStr (elementsOf claims)
  refine ⟨_, vcjwt, _, vpjwt, dwvcOf (wvcOf claims) D, hissue, hvp, hwvp, ?_, ?_⟩
  · intro k
    rw [dwvcOf_keys_mem]
    constructor
    · exact fun h => h.2
    · intro hk
      refine ⟨?_, hk⟩
      rw [wvcOf_keys]
      exact hD k hk
  · simp only [verify_vp, hdec, hwvp, hacc, hde]
    rfl

/-- Disclosure list for the C4 witness: one of the two claim keys of `rawW`. -/
def discW : List String := ["age"]

/-- Witness for C4 at a concrete credential, disclosure list and keys. -/
theorem issue_vp_disclosure_confinement_witness :
    mget rawW CLAIMS = some (.obj claimsW) ∧ wf (.obj rawW) = true ∧
    (∀ d ∈ discW, d ∈ claimsW.map Prod.fst) ∧
    (∃ vc vcjwt vp vpjwt newWvc,
      issue_vc rawW 7 () = .ok (vc, vcjwt) ∧
      issue_vp vc discW 9 = .ok (vp, vpjwt) ∧
      get_and_decode_map vp WVC = .ok newWvc ∧
      (∀ k, k ∈ newWvc.map Prod.fst ↔ k ∈ discW) ∧
      verify_vp vpjwt 7 9 () = .ok ()) :=
  ⟨rfl, by decide, by decide,
    issue_vp_disclosure_confinement rawW claimsW 7 9 discW rfl (by decide) (by decide)⟩

/-- C6: vacuous disclosure — disclosing only keys absent from the credential's
witness-value container yields a presentation whose witness-value container is
empty, and `verify_vp` on it succeeds rather than erroring. -/
theorem issue_vp_vacuous_disclosure (raw claims : Jmap) (issuerKey holderKey : Nat)
    (D : List String)
    (hc : mget raw CLAIMS = some (.obj claims)) (hwf : wf (.obj raw) = true)
    (hD : ∀ d ∈ D, ¬d ∈ (wvcOf claims).map Prod.fst) :
    ∃ vc vcjwt vp vpjwt,
      issue_vc raw issuerKey () = .ok (vc, vcjwt) ∧
      issue_vp vc D holderKey = .ok (vp, vpjwt) ∧
      get_and_decode_map vp WVC = .ok [] ∧
      verify_vp vpjwt issuerKey holderKey () = .ok () := by
  obtain ⟨vcjwt, hissue⟩ := issue_vc_eq raw claims issuerKey hc
  have hwfc : wf (.obj claims) = true := by
    rw [wf_obj_iff] at hwf
    exact hwf.2 (CLAIMS, .obj claims) (mget_mem _ _ _ hc)
  have hnd : nodupKeys claims = true := ((wf_obj_iff claims).mp hwfc).1
  have hndw : nodupKeys (wvcOf claims) = true := nodupKeys_wvcOf claims hnd
  have hg : get_and_decode_map (issuedVc raw claims) WVC = .ok (wvcOf claims) :=
    issuedVc_get_wvc raw claims hnd hwfc
  have hwfvc : wf (.obj (issuedVc raw claims)) = true := wf_issuedVc raw claims hwf
  have hwfw : wf (.obj (wvcOf claims)) = true := wf_wvcOf claims hwfc
  have hwfvp : wf (.obj (vpOf (issuedVc raw claims) (wvcOf claims) D)) = true :=
    wf_vpOf _ _ _ hwfvc
  obtain ⟨vpjwt, hsign, hdec⟩ := decode_encode_signed_jwt _ holderKey hwfvp
  have hvp : issue_vp (issuedVc raw claims) D holderKey =
      .ok (vpOf (issuedVc raw claims) (wvcOf claims) D, vpjwt) := by
    rw [issue_vp_eq0 _ _ D holderKey hg hndw, hsign]
  have hempty : dwvcOf (wvcOf claims) D = [] := by
    unfold dwvcOf
    rw [List.filter_eq_nil_iff]
    intro kv hkv hcont
    exact hD kv.1 (by simpa using hcont) (List.mem_map_of_mem _ hkv)
  have hwvp : get_and_decode_map (vpOf (issuedVc raw claims) (wvcOf claims) D) WVC =
      .ok [] := by
    rw [vpOf_get_wvc _ _ _ hwfw, hempty]
  have hacc := vpOf_get_acc raw claims (wvcOf claims) D
  have hde := deserialize_serializeStr (elementsOf claims)
  refine ⟨_, vcjwt, _, vpjwt, hissue, hvp, hwvp, ?_⟩
  simp only [verify_vp, hdec, hwvp, hacc, hde]
  rfl

/-- The per-entry check the specification mandates, as a boolean: the entry
must be a two-element array (serialized witness, claim value) whose witness
deserializes and whose membership check against the accumulator succeeds.
This is the specification-side counterpart of `wvcEntryCheck`, written from
the spec's words for comparison with the code's behaviour. -/
def wvcEntryCheckSpec (accumulator : List Nat) (issuer_public_key : Nat) (params : Unit)
    (claim_key : String) (array_value : Value) : Bool :=
  match array_value with
  | .arr array =>
    match array[0]? with
    | none => false
    | some witness_value =>
      match array[1]? with
      | none => false
      | some claim_value =>
        match witness_value with
        | .str witness_string =>
          match deserialize witness_string with
          | .error _ => false
          | .ok witness =>
            verify_membership accumulator (convert_claim_to_scalar claim_key claim_value)
              witness issuer_public_key params
        | _ => false
  | _ => false

/-- The WVC verdict the specification mandates: the logical AND of the
per-entry membership checks over all entries.  Specification-side definition,
to be compared with `verify_witness_value_container`. -/
def verify_wvc_spec (wvc : Jmap) (accumulator : List Nat) (issuer_public_key : Nat)
    (params : Unit) : Bool :=
  wvc.all (fun kv => wvcEntryCheckSpec accumulator issuer_public_key params kv.1 kv.2)

/-- The credential verifier the specification mandates: as `verify_vc`, but
the WVC verdict is the AND of the per-entry membership checks, and a failing
check is a membership-verification error distinct from the structural decode
errors.  Specification-side definition, to be compared with `verify_vc`. -/
def verify_vc_spec (vc : Jmap) (issuer_public_key : Nat) (params : Unit) :
    Except String Unit :=
  match get_and_decode_map vc WVC with
  | .error e => .error e
  | .ok witness_value_container =>
    match get_and_decode_string vc ACCUMULATOR with
    | .error e => .error e
    | .ok serialized_accumulator =>
      match deserialize serialized_accumulator with
      | .error e => .error e
      | .ok accumulator =>
        if verify_wvc_spec witness_value_container accumulator issuer_public_key params
        then .ok ()
        else .error "Failed to verify witness"

/-- `verify_witness_value_container` returns `Ok` on every input whatsoever:
the threads it spawns are never joined and the boolean each one computes is
discarded. -/
theorem verify_witness_value_container_const (wvc : Jmap) (accumulator : List Nat)
    (issuer_public_key : Nat) (params : Unit) :
    verify_witness_value_container wvc accumulator issuer_public_key params = .ok () := rfl

/-- Raw credential for the C1/C3 counterexamples: a single string claim. -/
def c1raw : Jmap := [(CLAIMS, .obj [("a", .str "b")])]

/-- Claim-set of `c1raw`. -/
def c1claims : Jmap := [("a", .str "b")]

/-- The credential issued over `c1raw`. -/
def c1vc : Jmap := issuedVc c1raw c1claims

/-- The WVC of `c1vc` with one byte of the disclosed claim's value flipped
(`"b"` becomes `"c"`); the witness is left untouched. -/
def c1wvcTampered : Jmap :=
  [("a", .arr [.str (serializeStr ((elementsOf c1claims).erase
    (convert_claim_to_scalar "a" (.str "b")))), .str "c"])]

/-- `c1vc` with the tampered WVC re-embedded in place of the genuine one. -/
def c1vcTampered : Jmap :=
  (minsert c1vc WVC (.str (String.mk (b64Encode (charsBytes
    (encVal (.obj c1wvcTampered))))))).2

/-- C1: refuted — the overall result of `verify_vc` is not the AND of the
per-claim membership checks.  On the untampered credential the
specification-side verifier agrees with the code, but after flipping a byte
of the disclosed claim's value the specification-side AND fails while
`verify_vc` still returns `Ok`: the code spawns the per-entry checks on
threads it never joins and discards each `verify_membership` boolean. -/
theorem verify_vc_not_and_of_membership_checks :
    verify_vc_spec c1vc 7 () = .ok () ∧
    verify_vc_spec c1vcTampered 7 () = .error "Failed to verify witness" ∧
    verify_vc c1vcTampered 7 () = .ok () := ⟨by rfl, by rfl, by rfl⟩

/-- `c1vc` with the serialized accumulator field replaced by the serialization
of a different accumulator value. -/
def c3vcTampered : Jmap :=
  (minsert c1vc ACCUMULATOR (.str (String.mk (b64Encode (charsBytes
    (encVal (.str (serializeStr [5])))))))).2

/-- `c1vc` with the accumulator field replaced by a string that is not valid
base64url. -/
def c3vcGarbage : Jmap := (minsert c1vc ACCUMULATOR (.str "%%%")).2

/-- C3: refuted — tampering with the serialized accumulator field of an
otherwise-valid credential never produces a membership-verification failure.
If the tampered field still decodes, `verify_vc` returns `Ok` outright (while
the specification-side verifier reports the membership failure); if it does
not decode, `verify_vc` returns a structural decode error. -/
theorem verify_vc_tampered_accumulator_no_membership_failure :
    verify_vc c3vcTampered 7 () = .ok () ∧
    verify_vc_spec c3vcTampered 7 () = .error "Failed to verify witness" ∧
    verify_vc c3vcGarbage 7 () = .error "Failed to decode field" := ⟨by rfl, by rfl, by rfl⟩

/-- Disclosure list for the C6 witness: a key absent from the claim-set. -/
def discAbsent : List String := ["email"]

/-- Witness for C6 at a concrete credential, absent-key disclosure list and
keys. -/
theorem issue_vp_vacuous_disclosure_witness :
    mget rawW CLAIMS = some (.obj claimsW) ∧ wf (.obj rawW) = true ∧
    (∀ d ∈ discAbsent, ¬d ∈ (wvcOf claimsW).map Prod.fst) ∧
    (∃ vc vcjwt vp vpjwt,
      issue_vc rawW 7 () = .ok (vc, vcjwt) ∧
      issue_vp vc discAbsent 9 = .ok (vp, vpjwt) ∧
      get_and_decode_map vp WVC = .ok [] ∧
      verify_vp vpjwt 7 9 () = .ok ()) :=
  ⟨rfl, by decide, by decide,
    issue_vp_vacuous_disclosure rawW claimsW 7 9 discAbsent rfl (by decide) (by decide)⟩

end CsdJwt
